import Mathlib

/-!
Verification of the FietSAT driver/route assignment tool (src/fietsat.py)
against its natural-language specification.

The Python source is embedded shallowly:
* Python dicts become association lists in insertion order (as in CPython);
* the pysat `IDPool` symbol table (an external library) is modelled from the
  spec contract of section 4.1,
* the external cardinality encoder (pysat `CardEnc`) is modelled from the
  spec contract of section 6 by a pairwise encoding; theorems that do not
  depend on the encoder quantify over an arbitrary encoder instead,
* the external SAT solver is an oracle parameter,
* fallible Python code (KeyError / ValueError) returns `Except`.

The first half of the file is the embedding, the second half the theorems.
-/

namespace FietSAT

/-! ## Rendering and parsing of integers and variable names

Embeds the Python f-string `f'd_{did}_{rid}_{exp}'` (fietsat.py line 113)
and its inverse `map(int, sym.split('_')[1:])` (line 183).  Strings are
lists of characters; number rendering uses a fuel-based digit peeler so
that everything reduces in the kernel. -/

/-- Little-endian decimal digits of a natural number, fuel-based.
`pyDigits 0 = [0]`, matching Python `str(0) = "0"`. -/
def digitsFuel : Nat → Nat → List Nat
  | 0, _ => []
  | fuel + 1, n => if n < 10 then [n] else (n % 10) :: digitsFuel fuel (n / 10)

def pyDigits (n : Nat) : List Nat := digitsFuel (n + 1) n

/-- The decimal rendering of a natural number, most significant digit first. -/
def renderNat (n : Nat) : List Char := ((pyDigits n).map Nat.digitChar).reverse

/-- The decimal rendering of an integer (embedding of Python `str` on `int`). -/
def renderInt (n : Int) : List Char :=
  if n < 0 then '-' :: renderNat n.natAbs else renderNat n.toNat

/-- Embedding of Python `int` applied to a string of decimal digits. -/
def parseNat (s : List Char) : Nat :=
  s.foldl (fun a c => 10 * a + (c.toNat - 48)) 0

/-- Embedding of Python `int` applied to an optionally sign-prefixed numeral. -/
def parseInt (s : List Char) : Int :=
  match s with
  | [] => 0
  | c :: rest => if c = '-' then -(parseNat rest : Int) else (parseNat s : Int)

/-- Embedding of Python `str.split(sep)` for a single-character separator. -/
def pySplit (sep : Char) : List Char → List (List Char)
  | [] => [[]]
  | c :: rest =>
    match pySplit sep rest with
    | [] => [[]]
    | h :: t => if c = sep then [] :: h :: t else (c :: h) :: t

/-- The propositional symbol name minted by `FietSAT.vid`:
the Python f-string `f'd_{did}_{rid}_{exp}'`. -/
def varName (did rid exp : Int) : List Char :=
  'd' :: '_' :: (renderInt did ++ '_' :: (renderInt rid ++ '_' :: renderInt exp))

/-- Embedding of `did, rid, exp = map(int, sym.split('_')[1:])` in
`FietSAT.report` (line 183); `none` models the ValueError raised when the
split does not produce exactly three fields after the head. -/
def decodeSym (sym : List Char) : Option (Int × Int × Int) :=
  match (pySplit '_' sym).drop 1 with
  | [a, b, c] => some (parseInt a, parseInt b, parseInt c)
  | _ => none

/-! ## The symbol table -/

/-- Modelled from the spec: the Symbol Table (pysat `IDPool`, an external
library consumed by fietsat.py).  Section 4.1: "id(name) -> integer returns
the existing integer bound to name, or mints and returns a fresh unused
positive integer if name is new"; lookup by integer is the inverse and
integers are never reused or reassigned.  `obj2id` is the name-to-integer
table in insertion order, `top` the largest integer handed out so far. -/
structure IDPool where
  obj2id : List (List Char × Int)
  top : Int
deriving DecidableEq

/-- `IDPool.id`: return the existing binding for `name`, or mint the fresh
integer `top + 1` and record it. -/
def IDPool.id (p : IDPool) (name : List Char) : Int × IDPool :=
  match p.obj2id.lookup name with
  | some v => (v, p)
  | none => (p.top + 1, ⟨p.obj2id ++ [(name, p.top + 1)], p.top + 1⟩)

/-- `IDPool.obj`: inverse lookup; `none` for integers allocated without a
name (the cardinality encoder's auxiliary variables). -/
def IDPool.obj (p : IDPool) (v : Int) : Option (List Char) :=
  (p.obj2id.find? (fun kv => kv.2 == v)).map Prod.fst

/-- The symbol table as freshly constructed (`IDPool()` mints 1, 2, ...). -/
def IDPool.init : IDPool := ⟨[], 0⟩

/-- Well-formedness of the symbol table: every bound integer is positive and
at most `top`, no integer is bound twice, and `top` is non-negative. -/
def IDPool.WF (p : IDPool) : Prop :=
  (∀ kv ∈ p.obj2id, 1 ≤ kv.2 ∧ kv.2 ≤ p.top) ∧
    (p.obj2id.map Prod.snd).Nodup ∧ 0 ≤ p.top

/-- `p` with possibly more bindings: every binding of `p` survives in `q`. -/
def IDPool.Extends (p q : IDPool) : Prop :=
  ∀ n v, p.obj2id.lookup n = some v → q.obj2id.lookup n = some v

/-- A sequence of further `id` calls on the table. -/
def IDPool.idMany (p : IDPool) (names : List (List Char)) : IDPool :=
  names.foldl (fun q m => (q.id m).2) p

/-- `FietSAT.vid` (line 109): the variable of the triple (did, rid, exp) is
the symbol-table integer of the name `d_{did}_{rid}_{exp}`. -/
def IDPool.vid (p : IDPool) (did rid exp : Int) : Int × IDPool :=
  p.id (varName did rid exp)

/-! ## Domain model and `FietSAT.parse`

`Driver` and `Route` are the two record classes of fietsat.py.  Python
dicts become association lists in insertion order; building a dict
comprehension on a duplicate key overwrites the value at the first
occurrence, as CPython does.  JSON decoding itself is outside the program;
`parse` is embedded from the point where the two object arrays exist. -/

structure Driver where
  id : Int
  name : List Char
  exp : Int
  routes : List Int
deriving DecidableEq

structure Route where
  id : Int
  start : List Char
  end_ : List Char
  drivers : List Int
deriving DecidableEq

/-- A record of the routes JSON file: `id`, `start`, `end` (no drivers). -/
structure RouteObj where
  id : Int
  start : List Char
  end_ : List Char
deriving DecidableEq

inductive PyErr where
  | keyError
  | valueError
deriving DecidableEq

/-- Python dict insertion: overwrite in place if the key exists, else
append at the end. -/
def dictInsert {α : Type} (d : List (Int × α)) (k : Int) (v : α) : List (Int × α) :=
  if k ∈ d.map Prod.fst then
    d.map (fun kv => if kv.1 = k then (kv.1, v) else kv)
  else d ++ [(k, v)]

/-- The dict comprehension of fietsat.py lines 60-64. -/
def driversDict (objs : List Driver) : List (Int × Driver) :=
  objs.foldl (fun d o => dictInsert d o.id o) []

/-- The dict comprehension of fietsat.py lines 68-72: each `Route` is
created with an empty drivers list. -/
def routesDict (objs : List RouteObj) : List (Int × Route) :=
  objs.foldl (fun d o => dictInsert d o.id ⟨o.id, o.start, o.end_, []⟩) []

/-- One step of the fill loop (line 77):
`routes_info[rid].drivers.append(did)`; a missing key is a KeyError. -/
def appendDriver (routes : List (Int × Route)) (rid did : Int) :
    Except PyErr (List (Int × Route)) :=
  if rid ∈ routes.map Prod.fst then
    .ok (routes.map fun kv =>
      if kv.1 = rid then (kv.1, ⟨kv.2.id, kv.2.start, kv.2.end_, kv.2.drivers ++ [did]⟩)
      else kv)
  else .error .keyError

/-- Inner loop of lines 76-77: `for rid in drivers_info[did].routes`. -/
def fillRids (did : Int) (rids : List Int) (routes : List (Int × Route)) :
    Except PyErr (List (Int × Route)) :=
  match rids with
  | [] => .ok routes
  | rid :: rest =>
    match appendDriver routes rid did with
    | .ok rs => fillRids did rest rs
    | .error e => .error e

/-- Outer loop of lines 75-77: `for did in drivers_info`. -/
def fillAll (drivers : List (Int × Driver)) (routes : List (Int × Route)) :
    Except PyErr (List (Int × Route)) :=
  match drivers with
  | [] => .ok routes
  | dd :: rest =>
    match fillRids dd.1 dd.2.routes routes with
    | .ok rs => fillAll rest rs
    | .error e => .error e

/-- `FietSAT.parse` (lines 42-79), from the decoded JSON arrays on. -/
def parse (dObjs : List Driver) (rObjs : List RouteObj) :
    Except PyErr (List (Int × Driver) × List (Int × Route)) :=
  let drivers_info := driversDict dObjs
  let routes_info := routesDict rObjs
  match fillAll drivers_info routes_info with
  | .ok rs => .ok (drivers_info, rs)
  | .error e => .error e

/-! ## Problem formulation (`FietSAT.formulate`, lines 122-154)

Clauses are lists of signed integer literals.  The mutable symbol table is
threaded explicitly: `stMap` is the embedding of a Python list
comprehension whose element expression mutates the table. -/

abbrev Clause := List Int

/-- State-passing list map over the symbol table. -/
def stMap {ι α : Type} (f : ι → IDPool → α × IDPool) : List ι → IDPool → List α × IDPool
  | [], p => ([], p)
  | i :: is, p =>
    let (a, p₁) := f i p
    let (as, p₂) := stMap f is p₁
    (a :: as, p₂)

/-- Minting a list of variables through the pool (a comprehension of `vid`
calls, with `ν` building each symbol name). -/
def mintNames {ι : Type} (ν : ι → List Char) (ts : List ι) : IDPool → List Int × IDPool :=
  stMap (fun t p => p.id (ν t)) ts

/-- An external cardinality-encoding capability: given literals (and the
shared symbol table, through which auxiliary variables may be minted),
produce CNF clauses. -/
structure Encoder where
  atmost : List Int → IDPool → List Clause × IDPool
  equals : List Int → IDPool → List Clause × IDPool

/-- All pairwise at-most-one clauses over a list of literals. -/
def pairwisePairs : List Int → List Clause
  | [] => []
  | a :: rest => rest.map (fun b => [-a, -b]) ++ pairwisePairs rest

/-- Modelled from the spec: the external cardinality-encoding capability
(pysat `CardEnc`, section 6: "atMost(variables, bound=1) -> CNF clauses;
exactly(variables, bound=1) -> CNF clauses; both may allocate fresh
auxiliary variables through the shared Symbol Table").  This model uses the
pairwise encoding, which needs no auxiliary variables; "exactly one of
zero" degenerates to the always-false empty clause, as section 4.2 notes. -/
def pairwiseEnc : Encoder where
  atmost := fun lits p => (pairwisePairs lits, p)
  equals := fun lits p => (lits :: pairwisePairs lits, p)

/-- `range(4, 0, -1)`. -/
def expDesc : List Int := [4, 3, 2, 1]

def intRangeGo : Nat → Int → List Int
  | 0, _ => []
  | n + 1, c => c :: intRangeGo n (c + 1)

/-- Python `range(a, b)` over integers. -/
def intRange (a b : Int) : List Int := intRangeGo (b - a).toNat a

/-- Iteration domain of clause group 1 (lines 127-131):
`for did in self.drivers() for rid in self.routes_of(did)`. -/
def c1Index (drivers : List (Int × Driver)) : List (Int × Int) :=
  drivers.flatMap (fun dd => dd.2.routes.map (fun rid => (dd.1, rid)))

/-- One entry of clause group 1: mint the four level variables of a
(driver, route) pair, encode at-most-one over them. -/
def c1F (enc : Encoder) (dr : Int × Int) (p : IDPool) : List Clause × IDPool :=
  let r := mintNames (fun e => varName dr.1 dr.2 e) expDesc p
  enc.atmost r.1 r.2

/-- Clause group 1: at most one experience level per (driver, route). -/
def c1M (enc : Encoder) (drivers : List (Int × Driver)) :
    IDPool → List (List Clause) × IDPool :=
  stMap (c1F enc) (c1Index drivers)

/-- One entry of clause group 2: all (route, level) variables of a driver,
encoded at-most-one. -/
def c2F (enc : Encoder) (dd : Int × Driver) (p : IDPool) : List Clause × IDPool :=
  let r := mintNames (fun re => varName dd.1 re.1 re.2)
    (dd.2.routes.flatMap (fun rid => expDesc.map (fun e => (rid, e)))) p
  enc.atmost r.1 r.2

/-- Clause group 2 (lines 134-138): at most one route per driver. -/
def c2M (enc : Encoder) (drivers : List (Int × Driver)) :
    IDPool → List (List Clause) × IDPool :=
  stMap (c2F enc) drivers

/-- Iteration domain of clause group 3 (lines 141-145):
`for rid in self.routes() for exp in range(4, 0, -1)`. -/
def c3Index (routes : List (Int × Route)) : List (Int × Route × Int) :=
  routes.flatMap (fun rr => expDesc.map (fun e => (rr.1, rr.2, e)))

/-- One entry of clause group 3: the variables of all drivers eligible for
the route at this level, encoded exactly-one. -/
def c3F (enc : Encoder) (re : Int × Route × Int) (p : IDPool) : List Clause × IDPool :=
  let r := mintNames (fun did => varName did re.1 re.2.2) re.2.1.drivers p
  enc.equals r.1 r.2

/-- Clause group 3: exactly one driver per experience level per route. -/
def c3M (enc : Encoder) (routes : List (Int × Route)) :
    IDPool → List (List Clause) × IDPool :=
  stMap (c3F enc) (c3Index routes)

/-- Iteration domain of clause group 4 (lines 148-151): `for did in
self.drivers() for rid in self.routes_of(did) for exp in
range(self.exp(did)+1, 5)`. -/
def c4Index (drivers : List (Int × Driver)) : List (Int × Int × Int) :=
  drivers.flatMap (fun dd => dd.2.routes.flatMap (fun rid =>
    (intRange (dd.2.exp + 1) 5).map (fun e => (dd.1, rid, e))))

/-- One entry of clause group 4: the single singleton clause
`[[-vid(did, rid, exp)]]`. -/
def c4F (t : Int × Int × Int) (p : IDPool) : List Clause × IDPool :=
  let r := p.vid t.1 t.2.1 t.2.2
  ([[-r.1]], r.2)

/-- Clause group 4: no driver above its own experience level. -/
def c4M (drivers : List (Int × Driver)) : IDPool → List (List Clause) × IDPool :=
  stMap c4F (c4Index drivers)

/-- The symbol names a literal of clause groups 1, 2 and 4 can refer to:
variables of a (driver, eligible route, level) triple. -/
def FromDriver (drivers : List (Int × Driver)) (name : List Char) : Prop :=
  ∃ dd ∈ drivers, ∃ rid ∈ dd.2.routes, ∃ e : Int, name = varName dd.1 rid e

/-- The symbol names a literal of clause group 3 can refer to: variables of
a (listed driver, route, level) triple. -/
def FromRoute (routes : List (Int × Route)) (name : List Char) : Prop :=
  ∃ rr ∈ routes, ∃ did ∈ rr.2.drivers, ∃ e : Int, name = varName did rr.1 e

/-- `FietSAT.formulate` on the domain data: the four clause groups, built
in source order with the symbol table threaded through. -/
def formulateM (enc : Encoder) (drivers : List (Int × Driver))
    (routes : List (Int × Route)) (p : IDPool) :
    (List (List Clause) × List (List Clause) × List (List Clause) × List (List Clause))
      × IDPool :=
  let (g1, p₁) := c1M enc drivers p
  let (g2, p₂) := c2M enc drivers p₁
  let (g3, p₃) := c3M enc routes p₂
  let (g4, p₄) := c4M drivers p₃
  ((g1, g2, g3, g4), p₄)

/-! ## The FietSAT object, solver adapter and reporter -/

/-- The mutable state of a `FietSAT` instance (`self` in fietsat.py). -/
structure State where
  drivers_info : List (Int × Driver)
  routes_info : List (Int × Route)
  syms : IDPool
  problem : List (List (List Clause))
  model : List Int
deriving DecidableEq

/-- The constructor (lines 25-39): parse both inputs, fresh symbol table,
empty problem and model. -/
def construct (dObjs : List Driver) (rObjs : List RouteObj) : Except PyErr State :=
  match parse dObjs rObjs with
  | .ok dr => .ok ⟨dr.1, dr.2, IDPool.init, [], []⟩
  | .error e => .error e

def State.drivers (fs : State) : List Int := fs.drivers_info.map Prod.fst

def State.routes (fs : State) : List Int := fs.routes_info.map Prod.fst

def State.routes_of (fs : State) (did : Int) : Option (List Int) :=
  (fs.drivers_info.lookup did).map Driver.routes

def State.drivers_of (fs : State) (rid : Int) : Option (List Int) :=
  (fs.routes_info.lookup rid).map Route.drivers

def State.exp (fs : State) (did : Int) : Option Int :=
  (fs.drivers_info.lookup did).map Driver.exp

/-- `FietSAT.formulate` as a method: returns the four groups and the
updated instance (lines 122-154; it assigns `self.problem` and grows
`self.syms`, nothing else). -/
def State.formulate (enc : Encoder) (fs : State) :
    (List (List Clause) × List (List Clause) × List (List Clause) × List (List Clause))
      × State :=
  let r := formulateM enc fs.drivers_info fs.routes_info fs.syms
  (r.1, { fs with syms := r.2, problem := [r.1.1, r.1.2.1, r.1.2.2.1, r.1.2.2.2] })

/-- `FietSAT.solve` (lines 156-168): flatten the groups into the solver,
delegate to the external SAT capability (the oracle), store the model. -/
def State.solve (oracle : List Clause → Option (List Int)) (fs : State) :
    Bool × State :=
  match oracle (fs.problem.flatMap (fun grp => grp.flatMap (fun f => f))) with
  | some m => (true, { fs with model := m })
  | none => (false, { fs with model := [] })

/-! ### `FietSAT.report` (lines 170-200) -/

/-- The Solution dict. -/
abbrev Sol := List (Int × List (Int × Int))

/-- Line 171: `solution = {rid: [] for rid in range(1, len(self.routes()) + 1)}`. -/
def initSol (n : Nat) : Sol := (intRange 1 ((n : Int) + 1)).map (fun rid => (rid, []))

/-- Line 184: `solution[rid].append((did, exp))`; missing key is a KeyError. -/
def solAppend (sol : Sol) (rid : Int) (pr : Int × Int) : Except PyErr Sol :=
  if rid ∈ sol.map Prod.fst then
    .ok (sol.map fun kv => if kv.1 = rid then (kv.1, kv.2 ++ [pr]) else kv)
  else .error .keyError

/-- The extraction loop of lines 179-184: positive literals with a
registered name are decoded and recorded; unnamed literals (the encoder's
auxiliary variables) are skipped. -/
def extractLoop (pool : IDPool) : List Int → Sol → Except PyErr Sol
  | [], sol => .ok sol
  | lit :: rest, sol =>
    if 0 < lit then
      match pool.obj lit with
      | some sym =>
        match decodeSym sym with
        | some t =>
          match solAppend sol t.2.1 (t.1, t.2.2) with
          | .ok sol₁ => extractLoop pool rest sol₁
          | .error err => .error err
        | none => .error .valueError
      | none => extractLoop pool rest sol
    else extractLoop pool rest sol

inductive Verdict where
  | sat
  | unsat
deriving DecidableEq

/-- Insert before the first element of strictly smaller key: the insertion
step of a stable descending sort. -/
def insertDesc (a : Int × Int) : List (Int × Int) → List (Int × Int)
  | [] => [a]
  | b :: rest => if b.2 ≤ a.2 then a :: b :: rest else b :: insertDesc a rest

/-- Line 195: `sorted(solution[rid], key=lambda sol_pair: sol_pair[1],
reverse=True)` — a stable sort, descending on the experience level.  A
stable sort's output is fully determined by the ordering, so this stable
insertion sort computes exactly what Python's `sorted` returns. -/
def sortPairs : List (Int × Int) → List (Int × Int)
  | [] => []
  | a :: rest => insertDesc a (sortPairs rest)

/-- Line 196 looks up `self.driver_info(did).name` for each printed pair;
a missing driver ID is a KeyError. -/
def lookupDrivers (fs : State) : List (Int × Int) → Except PyErr Unit
  | [] => .ok ()
  | pr :: rest =>
    match fs.drivers_info.lookup pr.1 with
    | some _ => lookupDrivers fs rest
    | none => .error .keyError

/-- The printing loop of lines 192-196: for each solution key, look up the
route, sort its pairs by level descending, and print each driver. -/
def printLoop (fs : State) : Sol → Except PyErr (List (Int × List (Int × Int)))
  | [] => .ok []
  | kv :: rest =>
    match fs.routes_info.lookup kv.1 with
    | none => .error .keyError
    | some _ =>
      match lookupDrivers fs (sortPairs kv.2) with
      | .error e => .error e
      | .ok _ =>
        match printLoop fs rest with
        | .ok out => .ok ((kv.1, sortPairs kv.2) :: out)
        | .error e => .error e

/-- What `report` produces: the returned solution, the printed
satisfiability verdict (`none` when nothing is printed at all), and the
per-route pair lists as presented. -/
structure Reported where
  solution : Sol
  verdict : Option Verdict
  printedRoutes : List (Int × List (Int × Int))
deriving DecidableEq

/-- `FietSAT.report` (lines 170-200).  Mirrors the source control flow:
the whole body — extraction, header, and the inner `if/else` that would
print `SAT? No` — sits under `if self.model != []`. -/
def State.report (fs : State) : Except PyErr Reported :=
  let sol0 := initSol fs.routes_info.length
  if fs.model ≠ [] then
    match extractLoop fs.syms fs.model sol0 with
    | .error e => .error e
    | .ok sol =>
      if fs.model ≠ [] then
        match printLoop fs sol with
        | .ok printed => .ok ⟨sol, some .sat, printed⟩
        | .error e => .error e
      else .ok ⟨sol, some .unsat, []⟩
  else .ok ⟨sol0, none, []⟩

/-- The printed satisfiability verdict of a run of `report`. -/
def verdictOf : Except PyErr Reported → Option Verdict
  | .ok r => r.verdict
  | .error _ => none

/-- Every name registered in the symbol table is a well-formed variable
name whose route ID belongs to `keys` — the state of the table after
formulating a successfully parsed domain model. -/
def PoolDecodable (p : IDPool) (keys : List Int) : Prop :=
  ∀ kv ∈ p.obj2id, ∃ did rid e : Int, kv.1 = varName did rid e ∧ rid ∈ keys

/-! ### Concrete instances used by the witnesses -/

/-- A one-driver, one-route domain: driver 1 (experience 2), eligible for
route 7 only. -/
def drvA : List (Int × Driver) := [(1, ⟨1, ['a'], 2, [7]⟩)]

/-- drvA next to a driver with an empty eligibility list. -/
def drvB : List (Int × Driver) := [(1, ⟨1, ['a'], 2, [7]⟩), (2, ⟨2, ['b'], 3, []⟩)]

/-- Route 7, whose derived eligibility list holds driver 1 only. -/
def rtsB : List (Int × Route) := [(7, ⟨7, ['s'], ['t'], [1]⟩)]

/-- An unsatisfiable run: no model, one route. -/
def fsUnsat : State := ⟨[], [(1, ⟨1, ['s'], ['t'], []⟩)], IDPool.init, [], []⟩

/-- A satisfiable run: variable 1 is `d_5_1_2` and the model sets it. -/
def fsSat : State :=
  ⟨[(5, ⟨5, ['n'], 2, [1]⟩)], [(1, ⟨1, ['s'], ['t'], [5]⟩)],
    ⟨[(varName 5 1 2, 1)], 1⟩, [], [1]⟩

/-! ## Theorems: rendering, parsing, and the name round trip -/

theorem digitsFuel_lt_ten {fuel n : Nat} (h : n < fuel) :
    ∀ d ∈ digitsFuel fuel n, d < 10 := by
  induction fuel generalizing n with
  | zero => omega
  | succ fuel ih =>
    intro d hd
    simp only [digitsFuel] at hd
    by_cases hn : n < 10
    · simp [hn] at hd; omega
    · simp [hn] at hd
      rcases hd with h1 | h2
      · omega
      · exact ih (by omega) d h2

theorem ofDigits_digitsFuel {fuel n : Nat} (h : n < fuel) :
    Nat.ofDigits 10 (digitsFuel fuel n) = n := by
  induction fuel generalizing n with
  | zero => omega
  | succ fuel ih =>
    simp only [digitsFuel]
    by_cases hn : n < 10
    · simp [hn, Nat.ofDigits]
    · simp only [hn, if_false, Nat.ofDigits_cons]
      rw [ih (by omega)]
      omega

theorem digitChar_toNat {d : Nat} (h : d < 10) : (Nat.digitChar d).toNat - 48 = d := by
  interval_cases d <;> rfl

theorem digitChar_ne_sep {d : Nat} (h : d < 10) :
    Nat.digitChar d ≠ '_' ∧ Nat.digitChar d ≠ '-' := by
  interval_cases d <;> exact ⟨by decide, by decide⟩

theorem foldl_digits_rev {ds : List Nat} (h : ∀ d ∈ ds, d < 10) (a : Nat) :
    List.foldl (fun a c => 10 * a + (c.toNat - 48)) a ((ds.map Nat.digitChar).reverse)
      = a * 10 ^ ds.length + Nat.ofDigits 10 ds := by
  induction ds generalizing a with
  | nil => simp [Nat.ofDigits]
  | cons d ds ih =>
    simp only [List.map_cons, List.reverse_cons, List.foldl_append, List.foldl_cons,
      List.foldl_nil]
    rw [ih (fun x hx => h x (List.mem_cons_of_mem _ hx)) a]
    rw [digitChar_toNat (h d (List.mem_cons_self _ _))]
    rw [Nat.ofDigits_cons, List.length_cons, pow_succ]
    ring

theorem parseNat_renderNat (n : Nat) : parseNat (renderNat n) = n := by
  unfold parseNat renderNat pyDigits
  rw [foldl_digits_rev (digitsFuel_lt_ten (Nat.lt_succ_self n))]
  rw [ofDigits_digitsFuel (Nat.lt_succ_self n)]
  simp

theorem renderNat_digits (n : Nat) :
    ∀ c ∈ renderNat n, ∃ d, d < 10 ∧ c = Nat.digitChar d := by
  intro c hc
  unfold renderNat pyDigits at hc
  rw [List.mem_reverse, List.mem_map] at hc
  obtain ⟨d, hd, rfl⟩ := hc
  exact ⟨d, digitsFuel_lt_ten (Nat.lt_succ_self n) d hd, rfl⟩

theorem renderNat_ne_sep (n : Nat) : ∀ c ∈ renderNat n, c ≠ '_' ∧ c ≠ '-' := by
  intro c hc
  obtain ⟨d, hd, rfl⟩ := renderNat_digits n c hc
  exact digitChar_ne_sep hd

theorem renderInt_ne_sep (n : Int) : ∀ c ∈ renderInt n, c ≠ '_' := by
  intro c hc
  unfold renderInt at hc
  by_cases h : n < 0
  · simp [h] at hc
    rcases hc with rfl | hc
    · decide
    · exact (renderNat_ne_sep _ c hc).1
  · simp [h] at hc
    exact (renderNat_ne_sep _ c hc).1

theorem parseInt_renderInt (n : Int) : parseInt (renderInt n) = n := by
  unfold renderInt
  by_cases h : n < 0
  · simp only [h, if_true, parseInt, if_pos rfl]
    rw [parseNat_renderNat]
    omega
  · simp only [h, if_false]
    have hne : renderNat n.toNat ≠ [] := by
      unfold renderNat pyDigits digitsFuel
      by_cases hsmall : n.toNat < 10 <;> simp [hsmall]
    match hr : renderNat n.toNat with
    | [] => exact absurd hr hne
    | c :: rest =>
      have hcne : c ≠ '-' := by
        have := renderNat_ne_sep n.toNat c (by rw [hr]; exact List.mem_cons_self _ _)
        exact this.2
      simp only [parseInt, hcne, if_false]
      rw [← hr, parseNat_renderNat]
      omega

theorem pySplit_ne_nil (sep : Char) (s : List Char) : pySplit sep s ≠ [] := by
  cases s with
  | nil => simp [pySplit]
  | cons c rest =>
    simp only [pySplit]
    match pySplit sep rest with
    | [] => simp
    | h :: t => by_cases hc : c = sep <;> simp [hc]

theorem pySplit_no_sep {sep : Char} {s : List Char} (h : ∀ c ∈ s, c ≠ sep) :
    pySplit sep s = [s] := by
  induction s with
  | nil => rfl
  | cons c rest ih =>
    simp only [pySplit]
    rw [ih (fun x hx => h x (List.mem_cons_of_mem _ hx))]
    simp [h c (List.mem_cons_self _ _)]

theorem pySplit_append {sep : Char} {s : List Char} (h : ∀ c ∈ s, c ≠ sep)
    (rest : List Char) :
    pySplit sep (s ++ sep :: rest) = s :: pySplit sep rest := by
  induction s with
  | nil =>
    simp only [List.nil_append, pySplit]
    match hps : pySplit sep rest with
    | [] => exact absurd hps (pySplit_ne_nil sep rest)
    | h :: t => simp
  | cons c s ih =>
    rw [List.cons_append]
    simp only [pySplit, List.append_eq]
    rw [ih (fun x hx => h x (List.mem_cons_of_mem _ hx))]
    simp [h c (List.mem_cons_self _ _)]

theorem pySplit_varName (did rid exp : Int) :
    pySplit '_' (varName did rid exp) =
      [['d'], renderInt did, renderInt rid, renderInt exp] := by
  unfold varName
  have hd : ∀ c ∈ ['d'], c ≠ '_' := by intro c hc; simp at hc; subst hc; decide
  have h1 := pySplit_append hd
    (renderInt did ++ '_' :: (renderInt rid ++ '_' :: renderInt exp))
  simp only [List.cons_append, List.nil_append] at h1
  rw [h1]
  rw [pySplit_append (renderInt_ne_sep did)]
  rw [pySplit_append (renderInt_ne_sep rid)]
  rw [pySplit_no_sep (renderInt_ne_sep exp)]

theorem decodeSym_varName (did rid exp : Int) :
    decodeSym (varName did rid exp) = some (did, rid, exp) := by
  unfold decodeSym
  rw [pySplit_varName]
  simp [parseInt_renderInt]

theorem varName_inj {a b c a' b' c' : Int} (h : varName a b c = varName a' b' c') :
    a = a' ∧ b = b' ∧ c = c' := by
  have h1 := decodeSym_varName a b c
  have h2 := decodeSym_varName a' b' c'
  rw [h] at h1
  rw [h1] at h2
  injection h2 with h3
  injection h3 with h4 h5
  injection h5 with h6 h7
  exact ⟨h4, h6, h7⟩

/-! ## Theorems: symbol table -/

theorem lookup_mem {α β : Type} [BEq α] [LawfulBEq α] {l : List (α × β)} {k : α} {v : β}
    (h : l.lookup k = some v) : (k, v) ∈ l := by
  induction l with
  | nil => simp [List.lookup] at h
  | cons kv rest ih =>
    obtain ⟨k', w⟩ := kv
    cases hbe : (k == k') with
    | true =>
      simp only [List.lookup, hbe] at h
      have hk : k = k' := by simpa using hbe
      subst hk
      injection h with h
      subst h
      exact List.mem_cons_self _ _
    | false =>
      simp only [List.lookup, hbe] at h
      exact List.mem_cons_of_mem _ (ih h)

theorem mem_iff_lookup {α β : Type} [BEq α] [LawfulBEq α] {l : List (α × β)}
    (hnd : (l.map Prod.fst).Nodup) {k : α} {v : β} :
    (k, v) ∈ l ↔ l.lookup k = some v := by
  constructor
  · intro h
    induction l with
    | nil => simp at h
    | cons kv rest ih =>
      rw [List.map_cons, List.nodup_cons] at hnd
      rcases List.mem_cons.mp h with rfl | hmem
      · simp [List.lookup]
      · have hk : k ≠ kv.1 := by
          intro he
          exact hnd.1 (he ▸ List.mem_map_of_mem Prod.fst hmem)
        have hbe : (k == kv.1) = false := by simpa using hk
        obtain ⟨k', w⟩ := kv
        simp only [List.lookup, hbe]
        exact ih hnd.2 hmem
  · exact lookup_mem

theorem lookup_cons_pair {α β : Type} [BEq α] [LawfulBEq α] [DecidableEq α] (k k' : α) (v : β)
    (l : List (α × β)) :
    ((k', v) :: l).lookup k = if k = k' then some v else l.lookup k := by
  by_cases h : k = k'
  · subst h
    simp [List.lookup]
  · have hbe : (k == k') = false := by simpa using h
    simp [List.lookup, hbe, h]

theorem IDPool.Extends.refl (p : IDPool) : p.Extends p := fun _ _ h => h

theorem IDPool.Extends.trans {p q r : IDPool} (h1 : p.Extends q) (h2 : q.Extends r) :
    p.Extends r := fun n v h => h2 n v (h1 n v h)

theorem IDPool.init_wf : IDPool.init.WF := by
  refine ⟨?_, ?_, ?_⟩ <;> simp [IDPool.init]

theorem IDPool.id_found {p : IDPool} {name : List Char} {v : Int}
    (h : p.obj2id.lookup name = some v) : p.id name = (v, p) := by
  simp [IDPool.id, h]

theorem IDPool.id_fresh {p : IDPool} {name : List Char}
    (h : p.obj2id.lookup name = none) :
    p.id name = (p.top + 1, ⟨p.obj2id ++ [(name, p.top + 1)], p.top + 1⟩) := by
  simp [IDPool.id, h]

theorem IDPool.id_extends (p : IDPool) (name : List Char) :
    p.Extends (p.id name).2 := by
  intro n v h
  unfold IDPool.id
  match hl : p.obj2id.lookup name with
  | some w => exact h
  | none =>
    simp only
    rw [List.lookup_append, h]
    rfl

theorem IDPool.id_binds (p : IDPool) (name : List Char) :
    ((p.id name).2).obj2id.lookup name = some (p.id name).1 := by
  unfold IDPool.id
  match hl : p.obj2id.lookup name with
  | some w => exact hl
  | none =>
    simp only
    rw [List.lookup_append, hl]
    simp [List.lookup]

theorem IDPool.id_wf {p : IDPool} (hwf : p.WF) (name : List Char) :
    ((p.id name).2).WF := by
  match hl : p.obj2id.lookup name with
  | some w =>
    rw [IDPool.id_found hl]
    exact hwf
  | none =>
    rw [IDPool.id_fresh hl]
    obtain ⟨hbound, hnodup, htop⟩ := hwf
    refine ⟨?_, ?_, ?_⟩
    · intro kv hkv
      simp only [List.mem_append, List.mem_singleton] at hkv
      show 1 ≤ kv.2 ∧ kv.2 ≤ p.top + 1
      rcases hkv with hkv | hkv
      · have := hbound kv hkv
        constructor <;> omega
      · subst hkv
        constructor <;> [skip; exact le_refl _]
        show 1 ≤ p.top + 1
        omega
    · show (List.map Prod.snd (p.obj2id ++ [(name, p.top + 1)])).Nodup
      rw [List.map_append, List.nodup_append]
      refine ⟨hnodup, by simp, ?_⟩
      intro v hv hv'
      simp only [List.map_cons, List.map_nil, List.mem_singleton] at hv'
      rw [List.mem_map] at hv
      obtain ⟨kv, hkv, rfl⟩ := hv
      have := hbound kv hkv
      omega
    · show (0 : Int) ≤ p.top + 1
      omega

theorem IDPool.id_fresh_unused {p : IDPool} (hwf : p.WF) {name : List Char}
    (h : p.obj2id.lookup name = none) :
    0 < (p.id name).1 ∧ ∀ kv ∈ p.obj2id, kv.2 ≠ (p.id name).1 := by
  rw [IDPool.id_fresh h]
  obtain ⟨hbound, _, htop⟩ := hwf
  refine ⟨by simp; omega, ?_⟩
  intro kv hkv
  have := hbound kv hkv
  simp
  omega

theorem IDPool.idMany_extends (p : IDPool) (names : List (List Char)) :
    p.Extends (p.idMany names) := by
  induction names generalizing p with
  | nil => exact IDPool.Extends.refl p
  | cons m rest ih =>
    exact (IDPool.id_extends p m).trans (ih ((p.id m).2))

theorem IDPool.idMany_wf {p : IDPool} (hwf : p.WF) (names : List (List Char)) :
    (p.idMany names).WF := by
  induction names generalizing p with
  | nil => exact hwf
  | cons m rest ih => exact ih (IDPool.id_wf hwf m)

theorem find_by_snd {l : List (List Char × Int)} (hnodup : (l.map Prod.snd).Nodup)
    {name : List Char} {v : Int} (h : (name, v) ∈ l) :
    (l.find? (fun kv => kv.2 == v)).map Prod.fst = some name := by
  induction l with
  | nil => simp at h
  | cons kv rest ih =>
    rw [List.map_cons, List.nodup_cons] at hnodup
    rcases List.mem_cons.mp h with rfl | hmem
    · simp [List.find?]
    · have hne : (kv.2 == v) = false := by
        simp only [beq_eq_false_iff_ne, ne_eq]
        intro he
        exact hnodup.1 (he ▸ List.mem_map_of_mem Prod.snd hmem)
      rw [List.find?, hne]
      exact ih hnodup.2 hmem

/-- With distinct bound integers, `obj` inverts any recorded binding. -/
theorem IDPool.obj_of_mem {p : IDPool} (hwf : p.WF) {name : List Char} {v : Int}
    (h : (name, v) ∈ p.obj2id) : p.obj v = some name :=
  find_by_snd hwf.2.1 h

/-! ## Theorems: parse and the eligibility inverse -/

theorem dictInsert_keys_nodup {α : Type} {d : List (Int × α)}
    (hnd : (d.map Prod.fst).Nodup) (k : Int) (v : α) :
    ((dictInsert d k v).map Prod.fst).Nodup := by
  unfold dictInsert
  by_cases hc : k ∈ d.map Prod.fst
  · rw [if_pos hc, List.map_map]
    have heq : List.map (Prod.fst ∘ fun kv => if kv.1 = k then (kv.1, v) else kv) d
        = List.map Prod.fst d := by
      apply List.map_congr_left
      intro kv _
      by_cases h : kv.1 = k <;> simp [h]
    rw [heq]
    exact hnd
  · rw [if_neg hc, List.map_append, List.nodup_append]
    refine ⟨hnd, by simp, ?_⟩
    intro a ha hb
    simp only [List.map_cons, List.map_nil, List.mem_singleton] at hb
    subst hb
    exact hc ha

theorem foldl_dictInsert_nodup {α β : Type} (objs : List α) (key : α → Int)
    (val : α → β) :
    ∀ d : List (Int × β), (d.map Prod.fst).Nodup →
      (((objs.foldl (fun acc o => dictInsert acc (key o) (val o)) d)).map Prod.fst).Nodup := by
  induction objs with
  | nil => intro d hd; exact hd
  | cons o rest ih =>
    intro d hd
    exact ih _ (dictInsert_keys_nodup hd _ _)

theorem driversDict_keys_nodup (objs : List Driver) :
    ((driversDict objs).map Prod.fst).Nodup :=
  foldl_dictInsert_nodup objs Driver.id (fun o => o) [] (by simp)

theorem routesDict_keys_nodup (objs : List RouteObj) :
    ((routesDict objs).map Prod.fst).Nodup := by
  unfold routesDict
  exact foldl_dictInsert_nodup objs RouteObj.id
    (fun o => Route.mk o.id o.start o.end_ []) [] (by simp)

theorem dictInsert_forall {α : Type} {P : α → Prop} {d : List (Int × α)} {k : Int} {v : α}
    (hd : ∀ kv ∈ d, P kv.2) (hv : P v) :
    ∀ kv ∈ dictInsert d k v, P kv.2 := by
  intro kv hkv
  unfold dictInsert at hkv
  by_cases hc : k ∈ d.map Prod.fst
  · rw [if_pos hc, List.mem_map] at hkv
    obtain ⟨kv₀, hkv₀, rfl⟩ := hkv
    by_cases h : kv₀.1 = k
    · simp only [h, if_true]
      exact hv
    · simp only [h, if_false]
      exact hd kv₀ hkv₀
  · rw [if_neg hc, List.mem_append] at hkv
    rcases hkv with hkv | hkv
    · exact hd kv hkv
    · simp only [List.mem_singleton] at hkv
      subst hkv
      exact hv

theorem routesDict_drivers_nil (objs : List RouteObj) :
    ∀ kv ∈ routesDict objs, kv.2.drivers = [] := by
  unfold routesDict
  suffices h : ∀ d : List (Int × Route), (∀ kv ∈ d, kv.2.drivers = []) →
      ∀ kv ∈ objs.foldl (fun d o => dictInsert d o.id ⟨o.id, o.start, o.end_, []⟩) d,
        kv.2.drivers = [] by
    exact h [] (by simp)
  induction objs with
  | nil => intro d hd; exact hd
  | cons o rest ih =>
    intro d hd
    rw [List.foldl_cons]
    apply ih
    intro kv hkv
    exact @dictInsert_forall Route (fun r : Route => r.drivers = []) d o.id
      (Route.mk o.id o.start o.end_ []) hd rfl kv hkv

theorem appendOne_lookup (l : List (Int × Route)) (rid did k : Int) :
    (l.map fun kv =>
        if kv.1 = rid then (kv.1, ⟨kv.2.id, kv.2.start, kv.2.end_, kv.2.drivers ++ [did]⟩)
        else kv).lookup k
      = if k = rid
        then (l.lookup k).map (fun r => ⟨r.id, r.start, r.end_, r.drivers ++ [did]⟩)
        else l.lookup k := by
  induction l with
  | nil => by_cases hk : k = rid <;> simp [hk, List.lookup]
  | cons kv rest ih =>
    obtain ⟨k', r⟩ := kv
    simp only [List.map_cons]
    by_cases hk' : k' = rid
    · rw [if_pos hk']
      rw [lookup_cons_pair, lookup_cons_pair]
      by_cases hkk : k = k'
      · rw [if_pos hkk, if_pos hkk, if_pos (hkk.trans hk')]
        simp
      · rw [if_neg hkk, if_neg hkk, ih]
    · rw [if_neg hk']
      rw [lookup_cons_pair, lookup_cons_pair]
      by_cases hkk : k = k'
      · have hnr : ¬ k = rid := fun he => hk' (hkk.symm.trans he)
        rw [if_pos hkk, if_pos hkk, if_neg hnr]
      · rw [if_neg hkk, if_neg hkk, ih]

theorem appendDriver_ok_mem {routes : List (Int × Route)} {rid did : Int}
    {rs : List (Int × Route)} (h : appendDriver routes rid did = .ok rs) :
    rid ∈ routes.map Prod.fst := by
  unfold appendDriver at h
  by_cases hc : rid ∈ routes.map Prod.fst
  · exact hc
  · rw [if_neg hc] at h
    exact absurd h (by simp)

theorem appendDriver_err {routes : List (Int × Route)} {rid did : Int} {e : PyErr}
    (h : appendDriver routes rid did = .error e) : e = .keyError := by
  unfold appendDriver at h
  by_cases hc : rid ∈ routes.map Prod.fst
  · rw [if_pos hc] at h
    exact absurd h (by simp)
  · rw [if_neg hc] at h
    injection h with h
    exact h.symm

theorem appendDriver_ok {routes : List (Int × Route)} {rid did : Int}
    {rs : List (Int × Route)} (h : appendDriver routes rid did = .ok rs) :
    rs.map Prod.fst = routes.map Prod.fst ∧
    ∀ k, rs.lookup k = if k = rid
        then (routes.lookup k).map (fun r => ⟨r.id, r.start, r.end_, r.drivers ++ [did]⟩)
        else routes.lookup k := by
  unfold appendDriver at h
  by_cases hc : rid ∈ routes.map Prod.fst
  · rw [if_pos hc] at h
    injection h with h
    subst h
    constructor
    · rw [List.map_map]
      apply List.map_congr_left
      intro kv _
      by_cases hk : kv.1 = rid <;> simp [hk]
    · intro k
      exact appendOne_lookup routes rid did k
  · rw [if_neg hc] at h
    exact absurd h (by simp)

theorem fillRids_ok {did : Int} {rids : List Int} {routes rs : List (Int × Route)}
    (h : fillRids did rids routes = .ok rs) :
    rs.map Prod.fst = routes.map Prod.fst ∧
    (∀ rid ∈ rids, rid ∈ routes.map Prod.fst) ∧
    ∀ k r', rs.lookup k = some r' → ∃ r, routes.lookup k = some r ∧
      r'.id = r.id ∧ r'.start = r.start ∧ r'.end_ = r.end_ ∧
      ∀ x, x ∈ r'.drivers ↔ x ∈ r.drivers ∨ (x = did ∧ k ∈ rids) := by
  induction rids generalizing routes with
  | nil =>
    simp only [fillRids] at h
    injection h with h
    subst h
    refine ⟨rfl, by simp, ?_⟩
    intro k r' hk
    exact ⟨r', hk, rfl, rfl, rfl, by simp⟩
  | cons rid rest ih =>
    simp only [fillRids] at h
    match hap : appendDriver routes rid did with
    | .error e =>
      rw [hap] at h
      exact absurd h (by simp)
    | .ok rs₁ =>
      rw [hap] at h
      obtain ⟨hkeys₁, hlk₁⟩ := appendDriver_ok hap
      obtain ⟨hkeys, hmem, hinv⟩ := ih h
      refine ⟨hkeys.trans hkeys₁, ?_, ?_⟩
      · intro r hr
        rcases List.mem_cons.mp hr with rfl | hr
        · exact appendDriver_ok_mem hap
        · exact hkeys₁ ▸ hmem r hr
      · intro k r' hk
        obtain ⟨r₁, hr₁, hid, hst, hen, hdr⟩ := hinv k r' hk
        have hlk := hlk₁ k
        by_cases hkr : k = rid
        · subst hkr
          rw [if_pos rfl] at hlk
          rw [hlk] at hr₁
          match hr0 : routes.lookup k with
          | none =>
            rw [hr0] at hr₁
            exact Option.noConfusion hr₁
          | some r0 =>
            rw [hr0] at hr₁
            injection hr₁ with hr₁
            subst hr₁
            refine ⟨r0, rfl, hid, hst, hen, ?_⟩
            intro x
            rw [hdr x]
            simp only [List.mem_append, List.mem_singleton]
            constructor
            · rintro (⟨hx | hx⟩ | ⟨hx, _⟩)
              · exact Or.inl hx
              · exact Or.inr ⟨hx, List.mem_cons_self _ _⟩
              · exact Or.inr ⟨hx, List.mem_cons_self _ _⟩
            · rintro (hx | ⟨hx, _⟩)
              · exact Or.inl (Or.inl hx)
              · exact Or.inl (Or.inr hx)
        · rw [if_neg hkr] at hlk
          rw [hlk] at hr₁
          refine ⟨r₁, hr₁, hid, hst, hen, ?_⟩
          intro x
          rw [hdr x]
          constructor
          · rintro (hx | ⟨hx, hk'⟩)
            · exact Or.inl hx
            · exact Or.inr ⟨hx, List.mem_cons_of_mem _ hk'⟩
          · rintro (hx | ⟨hx, hk'⟩)
            · exact Or.inl hx
            · rcases List.mem_cons.mp hk' with rfl | hk'
              · exact absurd rfl hkr
              · exact Or.inr ⟨hx, hk'⟩

theorem fillRids_err {did : Int} {rids : List Int} {routes : List (Int × Route)} {e : PyErr}
    (h : fillRids did rids routes = .error e) : e = .keyError := by
  induction rids generalizing routes with
  | nil => simp [fillRids] at h
  | cons rid rest ih =>
    simp only [fillRids] at h
    match hap : appendDriver routes rid did with
    | .error e' =>
      rw [hap] at h
      injection h with h
      subst h
      exact appendDriver_err hap
    | .ok rs₁ =>
      rw [hap] at h
      exact ih h

theorem fillAll_ok {ds : List (Int × Driver)} {routes rs : List (Int × Route)}
    (h : fillAll ds routes = .ok rs) :
    rs.map Prod.fst = routes.map Prod.fst ∧
    (∀ dd ∈ ds, ∀ rid ∈ dd.2.routes, rid ∈ routes.map Prod.fst) ∧
    ∀ k r', rs.lookup k = some r' → ∃ r, routes.lookup k = some r ∧
      r'.id = r.id ∧ r'.start = r.start ∧ r'.end_ = r.end_ ∧
      ∀ x, x ∈ r'.drivers ↔ x ∈ r.drivers ∨ ∃ d, (x, d) ∈ ds ∧ k ∈ d.routes := by
  induction ds generalizing routes with
  | nil =>
    simp only [fillAll] at h
    injection h with h
    subst h
    refine ⟨rfl, by simp, ?_⟩
    intro k r' hk
    exact ⟨r', hk, rfl, rfl, rfl, by simp⟩
  | cons dd rest ih =>
    simp only [fillAll] at h
    match hfr : fillRids dd.1 dd.2.routes routes with
    | .error e =>
      rw [hfr] at h
      exact absurd h (by simp)
    | .ok rs₁ =>
      rw [hfr] at h
      obtain ⟨hkeys₁, hmem₁, hinv₁⟩ := fillRids_ok hfr
      obtain ⟨hkeys, hmem, hinv⟩ := ih h
      refine ⟨hkeys.trans hkeys₁, ?_, ?_⟩
      · intro d hd rid hrid
        rcases List.mem_cons.mp hd with rfl | hd
        · exact hmem₁ rid hrid
        · exact hkeys₁ ▸ hmem d hd rid hrid
      · intro k r' hk
        obtain ⟨r₁, hr₁, hid, hst, hen, hdr⟩ := hinv k r' hk
        obtain ⟨r0, hr0, hid₁, hst₁, hen₁, hdr₁⟩ := hinv₁ k r₁ hr₁
        refine ⟨r0, hr0, hid.trans hid₁, hst.trans hst₁, hen.trans hen₁, ?_⟩
        intro x
        rw [hdr x, hdr₁ x]
        constructor
        · rintro ((hx | ⟨hx, hk'⟩) | ⟨d, hd, hk'⟩)
          · exact Or.inl hx
          · subst hx
            exact Or.inr ⟨dd.2, List.mem_cons_self _ _, hk'⟩
          · exact Or.inr ⟨d, List.mem_cons_of_mem _ hd, hk'⟩
        · rintro (hx | ⟨d, hd, hk'⟩)
          · exact Or.inl (Or.inl hx)
          · rcases List.mem_cons.mp hd with he | hd
            · have hx1 : x = dd.1 := by rw [← he]
              have hd2 : d = dd.2 := by rw [← he]
              subst hd2
              exact Or.inl (Or.inr ⟨hx1, hk'⟩)
            · exact Or.inr ⟨d, hd, hk'⟩

theorem fillAll_err {ds : List (Int × Driver)} {routes : List (Int × Route)} {e : PyErr}
    (h : fillAll ds routes = .error e) : e = .keyError := by
  induction ds generalizing routes with
  | nil => simp [fillAll] at h
  | cons dd rest ih =>
    simp only [fillAll] at h
    match hfr : fillRids dd.1 dd.2.routes routes with
    | .error e' =>
      rw [hfr] at h
      injection h with h
      subst h
      exact fillRids_err hfr
    | .ok rs₁ =>
      rw [hfr] at h
      exact ih h

/-! ## Theorems: formulation -/

theorem stMap_nil {ι α : Type} (f : ι → IDPool → α × IDPool) (p : IDPool) :
    stMap f [] p = ([], p) := rfl

theorem stMap_cons {ι α : Type} (f : ι → IDPool → α × IDPool) (i : ι) (ts : List ι)
    (p : IDPool) :
    stMap f (i :: ts) p
      = ((f i p).1 :: (stMap f ts (f i p).2).1, (stMap f ts (f i p).2).2) := rfl

theorem stMap_extends {ι α : Type} {f : ι → IDPool → α × IDPool}
    (hf : ∀ (i : ι) (p : IDPool), p.Extends (f i p).2) :
    ∀ (ts : List ι) (p : IDPool), p.Extends (stMap f ts p).2 := by
  intro ts
  induction ts with
  | nil => intro p; exact IDPool.Extends.refl p
  | cons i ts ih => intro p; exact (hf i p).trans (ih (f i p).2)

theorem stMap_wf {ι α : Type} {f : ι → IDPool → α × IDPool}
    (hf : ∀ (i : ι) (p : IDPool), p.WF → (f i p).2.WF) :
    ∀ (ts : List ι) (p : IDPool), p.WF → (stMap f ts p).2.WF := by
  intro ts
  induction ts with
  | nil => intro p hp; exact hp
  | cons i ts ih => intro p hp; exact ih (f i p).2 (hf i p hp)

theorem mintNames_extends {ι : Type} (ν : ι → List Char) (ts : List ι) (p : IDPool) :
    p.Extends (mintNames ν ts p).2 :=
  stMap_extends (fun t q => IDPool.id_extends q (ν t)) ts p

theorem mintNames_wf {ι : Type} (ν : ι → List Char) (ts : List ι) {p : IDPool}
    (hp : p.WF) : (mintNames ν ts p).2.WF :=
  stMap_wf (fun t _ hq => IDPool.id_wf hq (ν t)) ts p hp

theorem mintNames_lits {ι : Type} (ν : ι → List Char) (ts : List ι) (p : IDPool) :
    ∀ w ∈ (mintNames ν ts p).1,
      ∃ t ∈ ts, ((mintNames ν ts p).2).obj2id.lookup (ν t) = some w := by
  induction ts generalizing p with
  | nil =>
    intro w hw
    simp [mintNames, stMap] at hw
  | cons t ts ih =>
    intro w hw
    rw [show mintNames ν (t :: ts) p
        = ((p.id (ν t)).1 :: (mintNames ν ts (p.id (ν t)).2).1,
           (mintNames ν ts (p.id (ν t)).2).2) from rfl] at hw ⊢
    rcases List.mem_cons.mp hw with rfl | hw
    · refine ⟨t, List.mem_cons_self _ _, ?_⟩
      exact mintNames_extends ν ts (p.id (ν t)).2 (ν t) (p.id (ν t)).1
        (IDPool.id_binds p (ν t))
    · obtain ⟨t', ht', hlt⟩ := ih (p.id (ν t)).2 w hw
      exact ⟨t', List.mem_cons_of_mem _ ht', hlt⟩

theorem pairwisePairs_lits {lits : List Int} :
    ∀ cl ∈ pairwisePairs lits, ∀ x ∈ cl, ∃ v ∈ lits, x = -v := by
  induction lits with
  | nil => simp [pairwisePairs]
  | cons a rest ih =>
    intro cl hcl x hx
    simp only [pairwisePairs, List.mem_append, List.mem_map] at hcl
    rcases hcl with ⟨b, hb, rfl⟩ | hcl
    · rcases List.mem_cons.mp hx with rfl | hx
      · exact ⟨a, List.mem_cons_self _ _, rfl⟩
      · rcases List.mem_cons.mp hx with rfl | hx
        · exact ⟨b, List.mem_cons_of_mem _ hb, rfl⟩
        · simp at hx
    · obtain ⟨v, hv, hxv⟩ := ih cl hcl x hx
      exact ⟨v, List.mem_cons_of_mem _ hv, hxv⟩

theorem stMap_clauses {ι : Type} {f : ι → IDPool → List Clause × IDPool}
    {Φ : ι → List Char → Prop}
    (hext : ∀ (i : ι) (p : IDPool), p.Extends (f i p).2)
    (hwf : ∀ (i : ι) (p : IDPool), p.WF → (f i p).2.WF)
    (hlit : ∀ (i : ι) (p : IDPool), p.WF → ∀ cl ∈ (f i p).1, ∀ x ∈ cl, ∃ name v, Φ i name ∧
      ((f i p).2).obj2id.lookup name = some v ∧ (x = v ∨ x = -v)) :
    ∀ (ts : List ι) (p : IDPool), p.WF →
      ∀ sub ∈ (stMap f ts p).1, ∀ cl ∈ sub, ∀ x ∈ cl,
        ∃ i ∈ ts, ∃ name v, Φ i name ∧
          ((stMap f ts p).2).obj2id.lookup name = some v ∧ (x = v ∨ x = -v) := by
  intro ts
  induction ts with
  | nil =>
    intro p hp sub hsub
    simp [stMap] at hsub
  | cons i ts ih =>
    intro p hp sub hsub cl hcl x hx
    rw [stMap_cons] at hsub
    rcases List.mem_cons.mp hsub with rfl | hsub
    · obtain ⟨name, v, hΦ, hlk, hxv⟩ := hlit i p hp cl hcl x hx
      refine ⟨i, List.mem_cons_self _ _, name, v, hΦ, ?_, hxv⟩
      exact stMap_extends hext ts (f i p).2 name v hlk
    · obtain ⟨i', hi', name, v, hΦ, hlk, hxv⟩ :=
        ih (f i p).2 (hwf i p hp) sub hsub cl hcl x hx
      exact ⟨i', List.mem_cons_of_mem _ hi', name, v, hΦ, hlk, hxv⟩

theorem c1F_extends (dr : Int × Int) (p : IDPool) :
    p.Extends (c1F pairwiseEnc dr p).2 :=
  mintNames_extends _ _ p

theorem c1F_wf (dr : Int × Int) (p : IDPool) (hp : p.WF) :
    (c1F pairwiseEnc dr p).2.WF :=
  mintNames_wf _ _ hp

theorem c1F_lits (dr : Int × Int) (p : IDPool) :
    ∀ cl ∈ (c1F pairwiseEnc dr p).1, ∀ x ∈ cl,
      ∃ name v, (∃ e : Int, name = varName dr.1 dr.2 e) ∧
        ((c1F pairwiseEnc dr p).2).obj2id.lookup name = some v ∧ (x = v ∨ x = -v) := by
  intro cl hcl x hx
  obtain ⟨w, hw, rfl⟩ := pairwisePairs_lits cl hcl x hx
  obtain ⟨e, _, hlk⟩ := mintNames_lits (fun e => varName dr.1 dr.2 e) expDesc p w hw
  exact ⟨varName dr.1 dr.2 e, w, ⟨e, rfl⟩, hlk, Or.inr rfl⟩

theorem c2F_extends (dd : Int × Driver) (p : IDPool) :
    p.Extends (c2F pairwiseEnc dd p).2 :=
  mintNames_extends _ _ p

theorem c2F_wf (dd : Int × Driver) (p : IDPool) (hp : p.WF) :
    (c2F pairwiseEnc dd p).2.WF :=
  mintNames_wf _ _ hp

set_option maxHeartbeats 1000000 in
theorem c2F_lits (dd : Int × Driver) (p : IDPool) :
    ∀ cl ∈ (c2F pairwiseEnc dd p).1, ∀ x ∈ cl,
      ∃ name v, (∃ rid ∈ dd.2.routes, ∃ e : Int, name = varName dd.1 rid e) ∧
        ((c2F pairwiseEnc dd p).2).obj2id.lookup name = some v ∧ (x = v ∨ x = -v) := by
  intro cl hcl x hx
  obtain ⟨w, hw, rfl⟩ := pairwisePairs_lits cl hcl x hx
  obtain ⟨re, hre, hlk⟩ := mintNames_lits _ _ p w hw
  rw [List.mem_flatMap] at hre
  obtain ⟨rid, hrid, hre⟩ := hre
  rw [List.mem_map] at hre
  obtain ⟨e, _, rfl⟩ := hre
  exact ⟨varName dd.1 rid e, w, ⟨rid, hrid, e, rfl⟩, hlk, Or.inr rfl⟩

theorem c3F_extends (re : Int × Route × Int) (p : IDPool) :
    p.Extends (c3F pairwiseEnc re p).2 :=
  mintNames_extends _ _ p

theorem c3F_wf (re : Int × Route × Int) (p : IDPool) (hp : p.WF) :
    (c3F pairwiseEnc re p).2.WF :=
  mintNames_wf _ _ hp

theorem c3F_lits (re : Int × Route × Int) (p : IDPool) :
    ∀ cl ∈ (c3F pairwiseEnc re p).1, ∀ x ∈ cl,
      ∃ name v, (∃ did ∈ re.2.1.drivers, name = varName did re.1 re.2.2) ∧
        ((c3F pairwiseEnc re p).2).obj2id.lookup name = some v ∧ (x = v ∨ x = -v) := by
  intro cl hcl x hx
  rcases List.mem_cons.mp hcl with rfl | hcl
  · obtain ⟨did, hdid, hlk⟩ := mintNames_lits (fun did => varName did re.1 re.2.2)
      re.2.1.drivers p x hx
    exact ⟨varName did re.1 re.2.2, x, ⟨did, hdid, rfl⟩, hlk, Or.inl rfl⟩
  · obtain ⟨w, hw, rfl⟩ := pairwisePairs_lits cl hcl x hx
    obtain ⟨did, hdid, hlk⟩ := mintNames_lits (fun did => varName did re.1 re.2.2)
      re.2.1.drivers p w hw
    exact ⟨varName did re.1 re.2.2, w, ⟨did, hdid, rfl⟩, hlk, Or.inr rfl⟩

theorem c4F_extends (t : Int × Int × Int) (p : IDPool) :
    p.Extends (c4F t p).2 :=
  IDPool.id_extends p _

theorem c4F_wf (t : Int × Int × Int) (p : IDPool) (hp : p.WF) :
    (c4F t p).2.WF :=
  IDPool.id_wf hp _

theorem c4F_lits (t : Int × Int × Int) (p : IDPool) :
    ∀ cl ∈ (c4F t p).1, ∀ x ∈ cl,
      ∃ name v, name = varName t.1 t.2.1 t.2.2 ∧
        ((c4F t p).2).obj2id.lookup name = some v ∧ (x = v ∨ x = -v) := by
  intro cl hcl x hx
  rcases List.mem_cons.mp hcl with rfl | hcl
  · rcases List.mem_cons.mp hx with rfl | hx
    · exact ⟨varName t.1 t.2.1 t.2.2, (p.vid t.1 t.2.1 t.2.2).1, rfl,
        IDPool.id_binds p _, Or.inr rfl⟩
    · simp at hx
  · simp [c4F] at hcl

theorem mem_intRangeGo {n : Nat} {c x : Int} :
    x ∈ intRangeGo n c ↔ c ≤ x ∧ x < c + n := by
  induction n generalizing c with
  | zero =>
    simp only [intRangeGo, List.not_mem_nil, false_iff]
    omega
  | succ n ih =>
    simp only [intRangeGo, List.mem_cons, ih]
    constructor
    · rintro (rfl | ⟨h1, h2⟩)
      · constructor
        · exact le_refl x
        · have : (0 : Int) ≤ n := Int.natCast_nonneg n
          push_cast
          omega
      · push_cast
        omega
    · intro h
      by_cases hc : x = c
      · exact Or.inl hc
      · refine Or.inr ⟨by omega, ?_⟩
        push_cast at h ⊢
        omega

theorem mem_intRange {a b x : Int} : x ∈ intRange a b ↔ a ≤ x ∧ x < b := by
  unfold intRange
  rw [mem_intRangeGo]
  constructor
  · intro h
    constructor
    · exact h.1
    · have := h.2
      omega
  · intro h
    refine ⟨h.1, ?_⟩
    have := h.2
    omega

theorem formulateM_eq (enc : Encoder) (ds : List (Int × Driver))
    (rs : List (Int × Route)) (p : IDPool) :
    formulateM enc ds rs p =
      (((c1M enc ds p).1,
        (c2M enc ds (c1M enc ds p).2).1,
        (c3M enc rs (c2M enc ds (c1M enc ds p).2).2).1,
        (c4M ds (c3M enc rs (c2M enc ds (c1M enc ds p).2).2).2).1),
       (c4M ds (c3M enc rs (c2M enc ds (c1M enc ds p).2).2).2).2) := rfl

theorem c4Go_spec (ts : List (Int × Int × Int)) (p : IDPool) :
    (∀ t ∈ ts, ∃ v,
        ((stMap c4F ts p).2).obj2id.lookup (varName t.1 t.2.1 t.2.2) = some v ∧
        [[-v]] ∈ (stMap c4F ts p).1) ∧
    ∀ sub ∈ (stMap c4F ts p).1, ∃ t ∈ ts, ∃ v,
      ((stMap c4F ts p).2).obj2id.lookup (varName t.1 t.2.1 t.2.2) = some v ∧
      sub = [[-v]] := by
  induction ts generalizing p with
  | nil =>
    constructor
    · intro t ht
      simp at ht
    · intro sub hsub
      simp [stMap] at hsub
  | cons t ts ih =>
    have hbind := IDPool.id_binds p (varName t.1 t.2.1 t.2.2)
    have hext := stMap_extends c4F_extends ts (c4F t p).2
    constructor
    · intro t' ht'
      rcases List.mem_cons.mp ht' with rfl | ht'
      · exact ⟨(p.id (varName t'.1 t'.2.1 t'.2.2)).1,
          hext _ _ hbind, List.mem_cons_self _ _⟩
      · obtain ⟨v, hv, hm⟩ := (ih (c4F t p).2).1 t' ht'
        exact ⟨v, hv, List.mem_cons_of_mem _ hm⟩
    · intro sub hsub
      rcases List.mem_cons.mp hsub with rfl | hsub
      · exact ⟨t, List.mem_cons_self _ _, (p.id (varName t.1 t.2.1 t.2.2)).1,
          hext _ _ hbind, rfl⟩
      · obtain ⟨t', ht', v, hv, hsubeq⟩ := (ih (c4F t p).2).2 sub hsub
        exact ⟨t', List.mem_cons_of_mem _ ht', v, hv, hsubeq⟩

theorem mem_c1Index {drivers : List (Int × Driver)} {dr : Int × Int} :
    dr ∈ c1Index drivers ↔ ∃ dd ∈ drivers, dr.1 = dd.1 ∧ dr.2 ∈ dd.2.routes := by
  unfold c1Index
  simp only [List.mem_flatMap, List.mem_map]
  constructor
  · rintro ⟨dd, hdd, rid, hrid, rfl⟩
    exact ⟨dd, hdd, rfl, hrid⟩
  · rintro ⟨dd, hdd, h1, h2⟩
    refine ⟨dd, hdd, dr.2, h2, ?_⟩
    rw [← h1]

theorem mem_c3Index {routes : List (Int × Route)} {re : Int × Route × Int} :
    re ∈ c3Index routes ↔ ∃ rr ∈ routes, re.1 = rr.1 ∧ re.2.1 = rr.2 ∧ re.2.2 ∈ expDesc := by
  unfold c3Index
  simp only [List.mem_flatMap, List.mem_map]
  constructor
  · rintro ⟨rr, hrr, e, he, rfl⟩
    exact ⟨rr, hrr, rfl, rfl, he⟩
  · rintro ⟨rr, hrr, h1, h2, h3⟩
    refine ⟨rr, hrr, re.2.2, h3, ?_⟩
    rw [← h1, ← h2]

theorem mem_c4Index {drivers : List (Int × Driver)} {t : Int × Int × Int} :
    t ∈ c4Index drivers ↔ ∃ dd ∈ drivers, t.1 = dd.1 ∧ t.2.1 ∈ dd.2.routes ∧
      dd.2.exp < t.2.2 ∧ t.2.2 ≤ 4 := by
  unfold c4Index
  simp only [List.mem_flatMap, List.mem_map, mem_intRange]
  constructor
  · rintro ⟨dd, hdd, rid, hrid, e, ⟨he1, he2⟩, rfl⟩
    refine ⟨dd, hdd, rfl, hrid, ?_, ?_⟩
    · show dd.2.exp < e
      omega
    · show e ≤ 4
      omega
  · rintro ⟨dd, hdd, h1, h2, h3, h4⟩
    refine ⟨dd, hdd, t.2.1, h2, t.2.2, ⟨by omega, by omega⟩, ?_⟩
    rw [← h1]

/-- Every literal of every clause of the four groups (with the modelled
pairwise encoder) refers to a variable registered for a (driver, eligible
route, level) triple or a (listed driver, route, level) triple, as bound in
the final symbol table. -/
theorem formulateM_lits (drivers : List (Int × Driver)) (routes : List (Int × Route))
    (p : IDPool) (hp : p.WF) (g1 g2 g3 g4 : List (List Clause)) (p4 : IDPool)
    (hrun : formulateM pairwiseEnc drivers routes p = ((g1, g2, g3, g4), p4)) :
    p4.WF ∧
    ∀ g ∈ [g1, g2, g3, g4], ∀ sub ∈ g, ∀ cl ∈ sub, ∀ x ∈ cl,
      ∃ name v, (FromDriver drivers name ∨ FromRoute routes name) ∧
        p4.obj2id.lookup name = some v ∧ (x = v ∨ x = -v) := by
  rw [formulateM_eq] at hrun
  injection hrun with hquad hpool
  injection hquad with hg1 hrest
  injection hrest with hg2 hrest2
  injection hrest2 with hg3 hg4
  subst hg1
  subst hg2
  subst hg3
  subst hg4
  subst hpool
  have hwf1 : (c1M pairwiseEnc drivers p).2.WF :=
    stMap_wf c1F_wf (c1Index drivers) p hp
  have hwf2 : (c2M pairwiseEnc drivers (c1M pairwiseEnc drivers p).2).2.WF :=
    stMap_wf c2F_wf drivers _ hwf1
  have hwf3 : (c3M pairwiseEnc routes
      (c2M pairwiseEnc drivers (c1M pairwiseEnc drivers p).2).2).2.WF :=
    stMap_wf c3F_wf (c3Index routes) _ hwf2
  have hwf4 : (c4M drivers (c3M pairwiseEnc routes
      (c2M pairwiseEnc drivers (c1M pairwiseEnc drivers p).2).2).2).2.WF :=
    stMap_wf c4F_wf (c4Index drivers) _ hwf3
  have e2 := stMap_extends c2F_extends drivers (c1M pairwiseEnc drivers p).2
  have e3 := stMap_extends c3F_extends (c3Index routes)
    (c2M pairwiseEnc drivers (c1M pairwiseEnc drivers p).2).2
  have e4 := stMap_extends c4F_extends (c4Index drivers)
    (c3M pairwiseEnc routes (c2M pairwiseEnc drivers (c1M pairwiseEnc drivers p).2).2).2
  refine ⟨hwf4, ?_⟩
  intro g hg sub hsub cl hcl x hx
  rcases List.mem_cons.mp hg with rfl | hg
  · obtain ⟨i, hi, name, v, hΦ, hlk, hxv⟩ :=
      stMap_clauses c1F_extends c1F_wf (fun i q _ => c1F_lits i q)
        (c1Index drivers) p hp sub hsub cl hcl x hx
    obtain ⟨e, rfl⟩ := hΦ
    obtain ⟨dd, hdd, h1, h2⟩ := mem_c1Index.mp hi
    refine ⟨varName i.1 i.2 e, v, Or.inl ⟨dd, hdd, i.2, h2, e, by rw [h1]⟩, ?_, hxv⟩
    exact e4 _ _ (e3 _ _ (e2 _ _ hlk))
  rcases List.mem_cons.mp hg with rfl | hg
  · obtain ⟨i, hi, name, v, hΦ, hlk, hxv⟩ :=
      stMap_clauses c2F_extends c2F_wf (fun i q _ => c2F_lits i q)
        drivers _ hwf1 sub hsub cl hcl x hx
    obtain ⟨rid, hrid, e, rfl⟩ := hΦ
    refine ⟨varName i.1 rid e, v, Or.inl ⟨i, hi, rid, hrid, e, rfl⟩, ?_, hxv⟩
    exact e4 _ _ (e3 _ _ hlk)
  rcases List.mem_cons.mp hg with rfl | hg
  · obtain ⟨i, hi, name, v, hΦ, hlk, hxv⟩ :=
      stMap_clauses c3F_extends c3F_wf (fun i q _ => c3F_lits i q)
        (c3Index routes) _ hwf2 sub hsub cl hcl x hx
    obtain ⟨did, hdid, rfl⟩ := hΦ
    obtain ⟨rr, hrr, h1, h2, h3⟩ := mem_c3Index.mp hi
    refine ⟨varName did i.1 i.2.2, v,
      Or.inr ⟨rr, hrr, did, by rw [← h2]; exact hdid, i.2.2, by rw [h1]⟩, ?_, hxv⟩
    exact e4 _ _ hlk
  rcases List.mem_cons.mp hg with rfl | hg
  · obtain ⟨i, hi, name, v, hΦ, hlk, hxv⟩ :=
      stMap_clauses c4F_extends c4F_wf (fun i q _ => c4F_lits i q)
        (c4Index drivers) _ hwf3 sub hsub cl hcl x hx
    subst hΦ
    obtain ⟨dd, hdd, h1, h2, h3, h4⟩ := mem_c4Index.mp hi
    exact ⟨varName i.1 i.2.1 i.2.2, v,
      Or.inl ⟨dd, hdd, i.2.1, h2, i.2.2, by rw [h1]⟩, hlk, hxv⟩
  · simp at hg

/-! ## Theorems: the reporter -/

theorem initSol_keys (n : Nat) :
    (initSol n).map Prod.fst = intRange 1 ((n : Int) + 1) := by
  unfold initSol
  rw [List.map_map]
  have : (Prod.fst ∘ fun rid : Int => (rid, ([] : List (Int × Int)))) = fun rid => rid := by
    funext rid
    rfl
  rw [this]
  exact List.map_id _

theorem solAppend_keys {sol : Sol} {rid : Int} {pr : Int × Int} {sol' : Sol}
    (h : solAppend sol rid pr = .ok sol') :
    sol'.map Prod.fst = sol.map Prod.fst := by
  unfold solAppend at h
  split at h
  · injection h with h
    subst h
    rw [List.map_map]
    apply List.map_congr_left
    intro kv _
    by_cases hk : kv.1 = rid <;> simp [hk]
  · exact absurd h (by simp)

theorem solAppend_mem_ok {sol : Sol} {rid : Int} (pr : Int × Int)
    (h : rid ∈ sol.map Prod.fst) : ∃ sol', solAppend sol rid pr = .ok sol' := by
  unfold solAppend
  rw [if_pos h]
  exact ⟨_, rfl⟩

theorem solAppend_not_mem {sol : Sol} {rid : Int} (pr : Int × Int)
    (h : rid ∉ sol.map Prod.fst) : solAppend sol rid pr = .error .keyError := by
  unfold solAppend
  rw [if_neg h]

theorem extractLoop_cons (pool : IDPool) (lit : Int) (rest : List Int) (sol : Sol) :
    extractLoop pool (lit :: rest) sol =
      if 0 < lit then
        match pool.obj lit with
        | some sym =>
          match decodeSym sym with
          | some t =>
            match solAppend sol t.2.1 (t.1, t.2.2) with
            | .ok sol₁ => extractLoop pool rest sol₁
            | .error err => .error err
          | none => .error .valueError
        | none => extractLoop pool rest sol
      else extractLoop pool rest sol := rfl

theorem obj_some_mem {p : IDPool} {v : Int} {name : List Char}
    (h : p.obj v = some name) : (name, v) ∈ p.obj2id := by
  unfold IDPool.obj at h
  match hf : p.obj2id.find? (fun kv => kv.2 == v) with
  | none =>
    rw [hf] at h
    exact Option.noConfusion h
  | some kv =>
    rw [hf] at h
    injection h with h
    have hmem := List.mem_of_find?_eq_some hf
    have hv2 : kv.2 = v := by simpa using List.find?_some hf
    subst h
    rw [← hv2]
    exact hmem

theorem extractLoop_keys {pool : IDPool} :
    ∀ {model : List Int} {sol sol' : Sol},
      extractLoop pool model sol = .ok sol' →
      sol'.map Prod.fst = sol.map Prod.fst := by
  intro model
  induction model with
  | nil =>
    intro sol sol' h
    injection h with h
    subst h
    rfl
  | cons l rest ih =>
    intro sol sol' h
    rw [extractLoop_cons] at h
    split at h
    · split at h
      · split at h
        · split at h
          · have h1 := ih h
            rename_i heqApp
            rw [h1, solAppend_keys heqApp]
          · exact absurd h (by simp)
        · exact absurd h (by simp)
      · exact ih h
    · exact ih h

theorem extractLoop_step_nonpos {pool : IDPool} {l : Int} {rest : List Int} {sol : Sol}
    (hl : ¬ 0 < l) :
    extractLoop pool (l :: rest) sol = extractLoop pool rest sol := by
  rw [extractLoop_cons, if_neg hl]

theorem extractLoop_step_unnamed {pool : IDPool} {l : Int} {rest : List Int} {sol : Sol}
    (hl : 0 < l) (hobj : pool.obj l = none) :
    extractLoop pool (l :: rest) sol = extractLoop pool rest sol := by
  rw [extractLoop_cons, if_pos hl, hobj]

theorem extractLoop_step_named {pool : IDPool} {l : Int} {rest : List Int} {sol : Sol}
    {did rid e : Int} (hl : 0 < l) (hobj : pool.obj l = some (varName did rid e)) :
    extractLoop pool (l :: rest) sol =
      match solAppend sol rid (did, e) with
      | .ok sol₁ => extractLoop pool rest sol₁
      | .error err => .error err := by
  rw [extractLoop_cons, if_pos hl, hobj]
  show (match decodeSym (varName did rid e) with
    | some t =>
      match solAppend sol t.2.1 (t.1, t.2.2) with
      | .ok sol₁ => extractLoop pool rest sol₁
      | .error err => .error err
    | none => .error .valueError) = _
  rw [decodeSym_varName]

theorem extractLoop_total {pool : IDPool} {keys : List Int}
    (hdec : PoolDecodable pool keys) :
    ∀ (model : List Int) (sol : Sol),
      (∀ rid ∈ keys, rid ∈ sol.map Prod.fst) →
      ∃ sol', extractLoop pool model sol = .ok sol' := by
  intro model
  induction model with
  | nil =>
    intro sol _
    exact ⟨sol, rfl⟩
  | cons l rest ih =>
    intro sol hsol
    by_cases hl : 0 < l
    · match hobj : pool.obj l with
      | none =>
        rw [extractLoop_step_unnamed hl hobj]
        exact ih sol hsol
      | some sym =>
        obtain ⟨did, rid, e, hname, hrid⟩ := hdec _ (obj_some_mem hobj)
        simp only at hname
        subst hname
        rw [extractLoop_step_named hl hobj]
        obtain ⟨sol₁, hs₁⟩ := solAppend_mem_ok (did, e) (hsol rid hrid)
        rw [hs₁]
        refine ih sol₁ ?_
        intro k hk
        rw [solAppend_keys hs₁]
        exact hsol k hk
    · rw [extractLoop_step_nonpos hl]
      exact ih sol hsol

theorem extractLoop_bad_key {pool : IDPool} {keys : List Int}
    (hdec : PoolDecodable pool keys) {n : Int} :
    ∀ (model : List Int) (sol : Sol),
      (∀ rid : Int, rid ∈ sol.map Prod.fst ↔ 1 ≤ rid ∧ rid ≤ n) →
      ∀ lit ∈ model, 0 < lit →
      ∀ did rid e : Int, pool.obj lit = some (varName did rid e) →
      (rid < 1 ∨ n < rid) →
      extractLoop pool model sol = .error PyErr.keyError := by
  intro model
  induction model with
  | nil =>
    intro sol _ lit hlit
    simp at hlit
  | cons l rest ih =>
    intro sol hsol lit hlit hpos did rid e hobj hout
    by_cases hl : 0 < l
    · match hobjl : pool.obj l with
      | none =>
        have hne : lit ≠ l := by
          intro he
          rw [he, hobjl] at hobj
          exact Option.noConfusion hobj
        have hlit' : lit ∈ rest := by
          rcases List.mem_cons.mp hlit with rfl | hm
          · exact absurd rfl hne
          · exact hm
        rw [extractLoop_step_unnamed hl hobjl]
        exact ih sol hsol lit hlit' hpos did rid e hobj hout
      | some sym =>
        obtain ⟨d', r', e', hname, hr'⟩ := hdec _ (obj_some_mem hobjl)
        simp only at hname
        subst hname
        rw [extractLoop_step_named hl hobjl]
        by_cases hmem : r' ∈ sol.map Prod.fst
        · obtain ⟨sol₁, hs₁⟩ := solAppend_mem_ok (d', e') hmem
          rw [hs₁]
          have hsol₁ : ∀ k : Int, k ∈ sol₁.map Prod.fst ↔ 1 ≤ k ∧ k ≤ n := by
            intro k
            rw [solAppend_keys hs₁]
            exact hsol k
          rcases List.mem_cons.mp hlit with rfl | hlit'
          · rw [hobjl] at hobj
            injection hobj with hobj
            obtain ⟨_, hreq, _⟩ := varName_inj hobj
            have hin := (hsol r').mp hmem
            omega
          · exact ih sol₁ hsol₁ lit hlit' hpos did rid e hobj hout
        · rw [solAppend_not_mem (d', e') hmem]
    · rw [extractLoop_step_nonpos hl]
      have hne : lit ≠ l := by
        intro he
        rw [he] at hpos
        exact hl hpos
      have hlit' : lit ∈ rest := by
        rcases List.mem_cons.mp hlit with rfl | hm
        · exact absurd rfl hne
        · exact hm
      exact ih sol hsol lit hlit' hpos did rid e hobj hout

theorem printLoop_cons (fs : State) (kv : Int × List (Int × Int)) (rest : Sol) :
    printLoop fs (kv :: rest) =
      match fs.routes_info.lookup kv.1 with
      | none => .error .keyError
      | some _ =>
        match lookupDrivers fs (sortPairs kv.2) with
        | .error e => .error e
        | .ok _ =>
          match printLoop fs rest with
          | .ok out => .ok ((kv.1, sortPairs kv.2) :: out)
          | .error e => .error e := rfl

theorem printLoop_entries {fs : State} :
    ∀ {sol : Sol} {out : List (Int × List (Int × Int))},
      printLoop fs sol = .ok out →
      ∀ pr ∈ out, ∃ kv, kv ∈ sol ∧ pr = (kv.1, sortPairs kv.2) := by
  intro sol
  induction sol with
  | nil =>
    intro out h pr hpr
    injection h with h
    subst h
    simp at hpr
  | cons kv rest ih =>
    intro out h pr hpr
    rw [printLoop_cons] at h
    split at h
    · exact absurd h (by simp)
    · split at h
      · exact absurd h (by simp)
      · split at h
        · injection h with h
          subst h
          rcases List.mem_cons.mp hpr with rfl | hpr
          · exact ⟨kv, List.mem_cons_self _ _, rfl⟩
          · obtain ⟨kv', hkv', hpr'⟩ := ih (by assumption) pr hpr
            exact ⟨kv', List.mem_cons_of_mem _ hkv', hpr'⟩
        · exact absurd h (by simp)

theorem mem_insertDesc {a x : Int × Int} {l : List (Int × Int)} :
    x ∈ insertDesc a l ↔ x = a ∨ x ∈ l := by
  induction l with
  | nil => simp [insertDesc]
  | cons b rest ih =>
    unfold insertDesc
    by_cases hb : b.2 ≤ a.2
    · rw [if_pos hb]
      simp only [List.mem_cons]
    · rw [if_neg hb]
      simp only [List.mem_cons, ih]
      tauto

theorem insertDesc_sorted {a : Int × Int} {l : List (Int × Int)}
    (h : l.Pairwise (fun x y : Int × Int => y.2 ≤ x.2)) :
    (insertDesc a l).Pairwise (fun x y : Int × Int => y.2 ≤ x.2) := by
  induction l with
  | nil => simp [insertDesc]
  | cons b rest ih =>
    rw [List.pairwise_cons] at h
    unfold insertDesc
    by_cases hb : b.2 ≤ a.2
    · rw [if_pos hb, List.pairwise_cons]
      constructor
      · intro y hy
        rcases List.mem_cons.mp hy with rfl | hy
        · exact hb
        · exact le_trans (h.1 y hy) hb
      · exact List.Pairwise.cons h.1 h.2
    · rw [if_neg hb, List.pairwise_cons]
      constructor
      · intro y hy
        rcases mem_insertDesc.mp hy with rfl | hy
        · omega
        · exact h.1 y hy
      · exact ih h.2

theorem sortPairs_sorted (l : List (Int × Int)) :
    (sortPairs l).Pairwise (fun a b : Int × Int => b.2 ≤ a.2) := by
  induction l with
  | nil =>
    simp [sortPairs]
  | cons a rest ih =>
    exact insertDesc_sorted ih

theorem report_model_nil {fs : State} (h : fs.model = []) :
    fs.report = .ok ⟨initSol fs.routes_info.length, none, []⟩ := by
  unfold State.report
  rw [h]
  simp

theorem report_model_ne {fs : State} (h : fs.model ≠ []) :
    fs.report =
      match extractLoop fs.syms fs.model (initSol fs.routes_info.length) with
      | .error e => .error e
      | .ok sol =>
        match printLoop fs sol with
        | .ok printed => .ok ⟨sol, some .sat, printed⟩
        | .error e => .error e := by
  unfold State.report
  rw [if_pos h]
  split
  · rfl
  · rw [if_pos h]

theorem report_extract_err {fs : State} (hm : fs.model ≠ []) {e : PyErr}
    (hx : extractLoop fs.syms fs.model (initSol fs.routes_info.length) = .error e) :
    fs.report = .error e := by
  rw [report_model_ne hm, hx]

theorem report_extract_ok {fs : State} (hm : fs.model ≠ []) {sol : Sol}
    (hx : extractLoop fs.syms fs.model (initSol fs.routes_info.length) = .ok sol) :
    fs.report =
      match printLoop fs sol with
      | .ok printed => .ok ⟨sol, some .sat, printed⟩
      | .error e => .error e := by
  rw [report_model_ne hm, hx]

theorem parse_eq (dObjs : List Driver) (rObjs : List RouteObj) :
    parse dObjs rObjs =
      match fillAll (driversDict dObjs) (routesDict rObjs) with
      | .ok rs => .ok (driversDict dObjs, rs)
      | .error e => .error e := rfl

/-! ## The claims -/

/-- C1: the claim says an unsatisfiable run (no model) is surfaced by
`report` with the `SAT? No` verdict and an empty Solution.  The code does
return the empty solution without raising, but the entire printing block —
including the `else: print('SAT? No')` — is nested under
`if self.model != []`, so on an unsatisfiable run `report` prints nothing
at all: the unsat verdict is unreachable (first conjunct), and on a
concrete modelless run the verdict is `none`, not `unsat` (second
conjunct).  This contradicts the claim and the code's own intent: a code
bug. -/
theorem C1_unsat_verdict_never_printed :
    (∀ fs : State, verdictOf fs.report ≠ some Verdict.unsat) ∧
    fsUnsat.report = .ok ⟨[(1, [])], none, []⟩ := by
  constructor
  · intro fs
    by_cases hm : fs.model = []
    · rw [report_model_nil hm]
      simp [verdictOf]
    · match heq1 : extractLoop fs.syms fs.model (initSol fs.routes_info.length) with
      | .error e =>
        rw [report_extract_err hm heq1]
        simp [verdictOf]
      | .ok sol =>
        rw [report_extract_ok hm heq1]
        match heq2 : printLoop fs sol with
        | .error e => simp [verdictOf]
        | .ok printed => simp [verdictOf]
  · rfl

/-- C2: for every driver, every route in its eligibility list, and every
level e with exp(d) < e ≤ 4, the fourth clause group of `formulate`
contains the singleton clause holding the negative literal of the variable
of (d, r, e) — and nothing else: every member of the group is such a
singleton for such a triple. -/
theorem C2_group4_ceiling_clauses (enc : Encoder) (drivers : List (Int × Driver))
    (routes : List (Int × Route)) (p p4 : IDPool) (g1 g2 g3 g4 : List (List Clause))
    (hrun : formulateM enc drivers routes p = ((g1, g2, g3, g4), p4)) :
    (∀ dd ∈ drivers, ∀ rid ∈ dd.2.routes, ∀ e : Int, dd.2.exp < e → e ≤ 4 →
      ∃ v, p4.obj2id.lookup (varName dd.1 rid e) = some v ∧ [[-v]] ∈ g4) ∧
    ∀ sub ∈ g4, ∃ dd ∈ drivers, ∃ rid ∈ dd.2.routes, ∃ e v : Int,
      dd.2.exp < e ∧ e ≤ 4 ∧
      p4.obj2id.lookup (varName dd.1 rid e) = some v ∧ sub = [[-v]] := by
  rw [formulateM_eq] at hrun
  injection hrun with hquad hpool
  injection hquad with hg1 hrest
  injection hrest with hg2 hrest2
  injection hrest2 with hg3 hg4
  subst hg4
  subst hpool
  obtain ⟨hA, hB⟩ := c4Go_spec (c4Index drivers)
    (c3M enc routes (c2M enc drivers (c1M enc drivers p).2).2).2
  constructor
  · intro dd hdd rid hrid e he1 he2
    have ht : ((dd.1, rid, e) : Int × Int × Int) ∈ c4Index drivers :=
      mem_c4Index.mpr ⟨dd, hdd, rfl, hrid, he1, he2⟩
    obtain ⟨v, hv, hm⟩ := hA _ ht
    exact ⟨v, hv, hm⟩
  · intro sub hsub
    obtain ⟨t, ht, v, hv, hsubeq⟩ := hB sub hsub
    obtain ⟨dd, hdd, h1, h2, h3, h4⟩ := mem_c4Index.mp ht
    refine ⟨dd, hdd, t.2.1, h2, t.2.2, v, h3, h4, ?_, hsubeq⟩
    rw [← h1]
    exact hv

theorem C2_witness :
    (∀ dd ∈ drvA, ∀ rid ∈ dd.2.routes, ∀ e : Int, dd.2.exp < e → e ≤ 4 →
      ∃ v, ((formulateM pairwiseEnc drvA [] IDPool.init).2).obj2id.lookup
          (varName dd.1 rid e) = some v ∧
        [[-v]] ∈ (formulateM pairwiseEnc drvA [] IDPool.init).1.2.2.2) ∧
    ∀ sub ∈ (formulateM pairwiseEnc drvA [] IDPool.init).1.2.2.2,
      ∃ dd ∈ drvA, ∃ rid ∈ dd.2.routes, ∃ e v : Int, dd.2.exp < e ∧ e ≤ 4 ∧
        ((formulateM pairwiseEnc drvA [] IDPool.init).2).obj2id.lookup
          (varName dd.1 rid e) = some v ∧ sub = [[-v]] :=
  C2_group4_ceiling_clauses pairwiseEnc drvA [] IDPool.init
    (formulateM pairwiseEnc drvA [] IDPool.init).2
    (formulateM pairwiseEnc drvA [] IDPool.init).1.1
    (formulateM pairwiseEnc drvA [] IDPool.init).1.2.1
    (formulateM pairwiseEnc drvA [] IDPool.init).1.2.2.1
    (formulateM pairwiseEnc drvA [] IDPool.init).1.2.2.2
    rfl

/-- C3: after a successful parse, a route's drivers list holds exactly the
driver IDs whose own routes list contains the route's ID. -/
theorem C3_route_drivers_inverse {dObjs : List Driver} {rObjs : List RouteObj}
    {dm : List (Int × Driver)} {rm : List (Int × Route)}
    (h : parse dObjs rObjs = .ok (dm, rm)) :
    ∀ rr ∈ rm, ∀ did : Int,
      did ∈ rr.2.drivers ↔ ∃ d, dm.lookup did = some d ∧ rr.1 ∈ d.routes := by
  rw [parse_eq] at h
  match hfa : fillAll (driversDict dObjs) (routesDict rObjs) with
  | .error e =>
    rw [hfa] at h
    exact absurd h (by simp)
  | .ok rs =>
    rw [hfa] at h
    injection h with h
    injection h with h1 h2
    subst h1
    subst h2
    obtain ⟨hkeys, _, hinv⟩ := fillAll_ok hfa
    intro rr hrr did
    have hnd : (rs.map Prod.fst).Nodup := by
      rw [hkeys]
      exact routesDict_keys_nodup rObjs
    have hlkr : rs.lookup rr.1 = some rr.2 := (mem_iff_lookup hnd).mp hrr
    obtain ⟨r0, hr0, _, _, _, hdr⟩ := hinv rr.1 rr.2 hlkr
    have hr0nil : r0.drivers = [] :=
      routesDict_drivers_nil rObjs (rr.1, r0) (lookup_mem hr0)
    rw [hdr did, hr0nil]
    simp only [List.not_mem_nil, false_or]
    constructor
    · rintro ⟨d, hd, hrd⟩
      exact ⟨d, (mem_iff_lookup (driversDict_keys_nodup dObjs)).mp hd, hrd⟩
    · rintro ⟨d, hd, hrd⟩
      exact ⟨d, lookup_mem hd, hrd⟩

theorem C3_witness :
    parse [(⟨1, ['a'], 2, [5]⟩ : Driver)] [(⟨5, ['s'], ['t']⟩ : RouteObj)]
      = .ok ([(1, ⟨1, ['a'], 2, [5]⟩)], [(5, ⟨5, ['s'], ['t'], [1]⟩)]) ∧
    (∀ rr ∈ ([(5, (⟨5, ['s'], ['t'], [1]⟩ : Route))] : List (Int × Route)), ∀ did : Int,
      did ∈ rr.2.drivers ↔
        ∃ d, ([(1, (⟨1, ['a'], 2, [5]⟩ : Driver))] : List (Int × Driver)).lookup did
            = some d ∧ rr.1 ∈ d.routes) :=
  ⟨rfl, @C3_route_drivers_inverse [⟨1, ['a'], 2, [5]⟩] [⟨5, ['s'], ['t']⟩] _ _ rfl⟩

/-- C4: a variable minted by `vid` for a (driver, route, level) triple
decodes back, through `obj` (also after any further mints) and the
reporter's name parsing, to exactly the same triple. -/
theorem C4_vid_obj_roundtrip (p : IDPool) (hp : p.WF) (did rid e : Int)
    (ms : List (List Char)) :
    (((p.vid did rid e).2).idMany ms).obj (p.vid did rid e).1
      = some (varName did rid e) ∧
    decodeSym (varName did rid e) = some (did, rid, e) := by
  have hbind := IDPool.id_binds p (varName did rid e)
  have hlk := IDPool.idMany_extends (p.vid did rid e).2 ms (varName did rid e)
    (p.vid did rid e).1 hbind
  have hwf := IDPool.idMany_wf (IDPool.id_wf hp (varName did rid e)) ms
  exact ⟨IDPool.obj_of_mem hwf (lookup_mem hlk), decodeSym_varName did rid e⟩

theorem C4_witness :
    (((IDPool.init.vid 7 3 2).2).idMany []).obj (IDPool.init.vid 7 3 2).1
      = some (varName 7 3 2) ∧
    decodeSym (varName 7 3 2) = some (7, 3, 2) :=
  C4_vid_obj_roundtrip IDPool.init IDPool.init_wf 7 3 2 []

/-- C5: the symbol table returns an existing binding unchanged, otherwise
mints a fresh unused positive integer and binds it; bindings survive any
further mints, so `vid` on the same triple always returns the same
integer and integers are never reused or reassigned. -/
theorem C5_symbol_table_contract (p : IDPool) (nm : List Char) (v : Int)
    (hp : p.WF) :
    (p.obj2id.lookup nm = some v → p.id nm = (v, p)) ∧
    (p.obj2id.lookup nm = none →
      0 < (p.id nm).1 ∧ (∀ kv ∈ p.obj2id, kv.2 ≠ (p.id nm).1) ∧
      ((p.id nm).2).obj2id.lookup nm = some (p.id nm).1) ∧
    (p.obj2id.lookup nm = some v →
      ∀ ms, (p.idMany ms).obj2id.lookup nm = some v) ∧
    (∀ did rid e w : Int, ∀ q : IDPool, p.vid did rid e = (w, q) →
      ∀ ms, ((q.idMany ms).vid did rid e).1 = w) := by
  refine ⟨IDPool.id_found, ?_, ?_, ?_⟩
  · intro hnone
    obtain ⟨hpos, hfresh⟩ := IDPool.id_fresh_unused hp hnone
    exact ⟨hpos, hfresh, IDPool.id_binds p nm⟩
  · intro hsome ms
    exact IDPool.idMany_extends p ms nm v hsome
  · intro did rid e w q hvid ms
    unfold IDPool.vid at hvid
    have hbind := IDPool.id_binds p (varName did rid e)
    rw [hvid] at hbind
    have hlk : q.obj2id.lookup (varName did rid e) = some w := hbind
    have hlk' := IDPool.idMany_extends q ms (varName did rid e) w hlk
    unfold IDPool.vid
    rw [IDPool.id_found hlk']

theorem C5_witness :
    (IDPool.init.obj2id.lookup (varName 1 2 3) = some 9 →
      IDPool.init.id (varName 1 2 3) = (9, IDPool.init)) ∧
    (IDPool.init.obj2id.lookup (varName 1 2 3) = none →
      0 < (IDPool.init.id (varName 1 2 3)).1 ∧
      (∀ kv ∈ IDPool.init.obj2id, kv.2 ≠ (IDPool.init.id (varName 1 2 3)).1) ∧
      ((IDPool.init.id (varName 1 2 3)).2).obj2id.lookup (varName 1 2 3)
        = some (IDPool.init.id (varName 1 2 3)).1) ∧
    (IDPool.init.obj2id.lookup (varName 1 2 3) = some 9 →
      ∀ ms, (IDPool.init.idMany ms).obj2id.lookup (varName 1 2 3) = some 9) ∧
    (∀ did rid e w : Int, ∀ q : IDPool, IDPool.init.vid did rid e = (w, q) →
      ∀ ms, ((q.idMany ms).vid did rid e).1 = w) :=
  C5_symbol_table_contract IDPool.init (varName 1 2 3) 9 IDPool.init_wf

/-- C6: a route ID in some driver's eligibility list that is not a key of
the routes map makes `parse` (and hence construction) fail with a
KeyError, rather than recover or skip. -/
theorem C6_unknown_route_fatal (dObjs : List Driver) (rObjs : List RouteObj)
    (h : ∃ dd ∈ driversDict dObjs, ∃ rid ∈ dd.2.routes,
      rid ∉ (routesDict rObjs).map Prod.fst) :
    parse dObjs rObjs = .error PyErr.keyError := by
  obtain ⟨dd, hdd, rid, hrid, hout⟩ := h
  rw [parse_eq]
  match hfa : fillAll (driversDict dObjs) (routesDict rObjs) with
  | .ok rs =>
    obtain ⟨_, hmem, _⟩ := fillAll_ok hfa
    exact absurd (hmem dd hdd rid hrid) hout
  | .error e =>
    have he := fillAll_err hfa
    subst he
    rfl

theorem C6_witness :
    (∃ dd ∈ driversDict [(⟨1, ['a'], 2, [5]⟩ : Driver)], ∃ rid ∈ dd.2.routes,
      rid ∉ (routesDict []).map Prod.fst) ∧
    parse [(⟨1, ['a'], 2, [5]⟩ : Driver)] [] = .error PyErr.keyError :=
  ⟨⟨(1, ⟨1, ['a'], 2, [5]⟩), by decide, 5, by decide, by decide⟩,
    C6_unknown_route_fatal [⟨1, ['a'], 2, [5]⟩] []
      ⟨(1, ⟨1, ['a'], 2, [5]⟩), by decide, 5, by decide, by decide⟩⟩

/-- C7: a driver with an empty eligibility list is left unconstrained by
`formulate`: no literal of any clause of any of the four groups refers to
any of that driver's variables. -/
theorem C7_empty_driver_unconstrained (drivers : List (Int × Driver))
    (routes : List (Int × Route)) (p : IDPool) (hp : p.WF)
    (g1 g2 g3 g4 : List (List Clause)) (p4 : IDPool)
    (hrun : formulateM pairwiseEnc drivers routes p = ((g1, g2, g3, g4), p4))
    (d0 : Int × Driver) (hd0 : d0 ∈ drivers)
    (hnod : (drivers.map Prod.fst).Nodup)
    (hempty : d0.2.routes = [])
    (hinv : ∀ rr ∈ routes, d0.1 ∉ rr.2.drivers) :
    ∀ g ∈ [g1, g2, g3, g4], ∀ sub ∈ g, ∀ cl ∈ sub, ∀ x ∈ cl,
      ∀ rid e v : Int, p4.obj2id.lookup (varName d0.1 rid e) = some v →
        x ≠ v ∧ x ≠ -v := by
  obtain ⟨hwf4, hmaster⟩ := formulateM_lits drivers routes p hp g1 g2 g3 g4 p4 hrun
  intro g hg sub hsub cl hcl x hx rid e v hv
  obtain ⟨name, w, hsrc, hlkw, hxw⟩ := hmaster g hg sub hsub cl hcl x hx
  have hposv : 1 ≤ v := (hwf4.1 _ (lookup_mem hv)).1
  have hposw : 1 ≤ w := (hwf4.1 _ (lookup_mem hlkw)).1
  have hkey : v = w → False := by
    intro hvw
    subst hvw
    have hmem1 := lookup_mem hv
    have hmem2 := lookup_mem hlkw
    have hpairs := List.inj_on_of_nodup_map hwf4.2.1 hmem1 hmem2 rfl
    have hnames : varName d0.1 rid e = name := congrArg Prod.fst hpairs
    rcases hsrc with ⟨dd, hdd, rid', hrid', e', hne⟩ | ⟨rr, hrr, did', hdid', e'', hne⟩
    · rw [← hnames] at hne
      obtain ⟨hid, _, _⟩ := varName_inj hne
      have hdd0 : dd = d0 := List.inj_on_of_nodup_map hnod hdd hd0 hid.symm
      rw [hdd0, hempty] at hrid'
      simp at hrid'
    · rw [← hnames] at hne
      obtain ⟨hid, _, _⟩ := varName_inj hne
      refine hinv rr hrr ?_
      rw [hid]
      exact hdid'
  constructor
  · intro hxv
    apply hkey
    rcases hxw with hw | hw <;> omega
  · intro hxv
    apply hkey
    rcases hxw with hw | hw <;> omega

theorem C7_witness :
    (drvB.map Prod.fst).Nodup ∧
    ∀ g ∈ [(formulateM pairwiseEnc drvB rtsB IDPool.init).1.1,
        (formulateM pairwiseEnc drvB rtsB IDPool.init).1.2.1,
        (formulateM pairwiseEnc drvB rtsB IDPool.init).1.2.2.1,
        (formulateM pairwiseEnc drvB rtsB IDPool.init).1.2.2.2],
      ∀ sub ∈ g, ∀ cl ∈ sub, ∀ x ∈ cl,
      ∀ rid e v : Int,
        ((formulateM pairwiseEnc drvB rtsB IDPool.init).2).obj2id.lookup
          (varName (2, (⟨2, ['b'], 3, []⟩ : Driver)).1 rid e) = some v →
        x ≠ v ∧ x ≠ -v :=
  ⟨by decide, C7_empty_driver_unconstrained drvB rtsB IDPool.init IDPool.init_wf
    (formulateM pairwiseEnc drvB rtsB IDPool.init).1.1
    (formulateM pairwiseEnc drvB rtsB IDPool.init).1.2.1
    (formulateM pairwiseEnc drvB rtsB IDPool.init).1.2.2.1
    (formulateM pairwiseEnc drvB rtsB IDPool.init).1.2.2.2
    (formulateM pairwiseEnc drvB rtsB IDPool.init).2
    rfl (2, ⟨2, ['b'], 3, []⟩) (by decide) (by decide) rfl (by decide)⟩

/-- C8: every per-route pair list as presented by `report` is ordered by
experience level descending. -/
theorem C8_printed_pairs_sorted (fs : State) (r : Reported)
    (h : fs.report = .ok r) :
    ∀ pr ∈ r.printedRoutes, pr.2.Pairwise (fun a b : Int × Int => b.2 ≤ a.2) := by
  intro pr hpr
  by_cases hm : fs.model = []
  · rw [report_model_nil hm] at h
    injection h with h
    subst h
    simp at hpr
  · match heq1 : extractLoop fs.syms fs.model (initSol fs.routes_info.length) with
    | .error e =>
      rw [report_extract_err hm heq1] at h
      exact absurd h (by simp)
    | .ok sol =>
      rw [report_extract_ok hm heq1] at h
      match heq2 : printLoop fs sol with
      | .error e =>
        rw [heq2] at h
        exact absurd h (by simp)
      | .ok printed =>
        rw [heq2] at h
        injection h with h
        subst h
        obtain ⟨kv, hkv, hpr'⟩ := printLoop_entries heq2 pr hpr
        rw [hpr']
        exact sortPairs_sorted kv.2

theorem C8_witness :
    fsSat.report = .ok (Reported.mk [(1, [(5, 2)])] (some Verdict.sat)
      [(1, [(5, 2)])]) ∧
    ∀ pr ∈ (Reported.mk [(1, [(5, 2)])] (some Verdict.sat)
        [(1, [(5, 2)])]).printedRoutes,
      pr.2.Pairwise (fun a b : Int × Int => b.2 ≤ a.2) :=
  ⟨rfl, C8_printed_pairs_sorted fsSat
    (Reported.mk [(1, [(5, 2)])] (some Verdict.sat) [(1, [(5, 2)])]) rfl⟩

/-- C9: after construction the domain model never changes: `formulate`
(which only grows the symbol table and stores the problem) and `solve`
(which only stores the model) leave `drivers_info` and `routes_info` —
hence every driver's routes list and every route's drivers list —
untouched; the accessors and `report` are pure functions of the state. -/
theorem C9_domain_model_immutable (enc : Encoder)
    (oracle : List Clause → Option (List Int)) (fs : State) :
    ((fs.formulate enc).2.drivers_info = fs.drivers_info ∧
      (fs.formulate enc).2.routes_info = fs.routes_info) ∧
    ((fs.solve oracle).2.drivers_info = fs.drivers_info ∧
      (fs.solve oracle).2.routes_info = fs.routes_info) := by
  refine ⟨⟨rfl, rfl⟩, ?_⟩
  unfold State.solve
  match oracle (fs.problem.flatMap (fun grp => grp.flatMap (fun f => f))) with
  | some m => exact ⟨rfl, rfl⟩
  | none => exact ⟨rfl, rfl⟩

/-- C10: the reporter keys the Solution by 1..(number of routes), not by
the actual route IDs: decoding succeeds when every route ID lies in that
range, a model literal naming a route ID outside it makes `report` raise a
KeyError, and the returned Solution's keys are always exactly 1..n. -/
theorem C10_solution_keyed_by_range (fs : State)
    (hdec : PoolDecodable fs.syms (fs.routes_info.map Prod.fst)) :
    ((∀ rid ∈ fs.routes_info.map Prod.fst,
        1 ≤ rid ∧ rid ≤ (fs.routes_info.length : Int)) →
      ∃ sol, extractLoop fs.syms fs.model (initSol fs.routes_info.length) = .ok sol) ∧
    (∀ lit ∈ fs.model, 0 < lit → ∀ did rid e : Int,
      fs.syms.obj lit = some (varName did rid e) →
      (rid < 1 ∨ (fs.routes_info.length : Int) < rid) →
      fs.report = .error PyErr.keyError) ∧
    (∀ r, fs.report = .ok r →
      r.solution.map Prod.fst = intRange 1 ((fs.routes_info.length : Int) + 1)) := by
  have hkeys0 : (initSol fs.routes_info.length).map Prod.fst
      = intRange 1 ((fs.routes_info.length : Int) + 1) := initSol_keys _
  refine ⟨?_, ?_, ?_⟩
  · intro hrange
    refine extractLoop_total hdec fs.model _ ?_
    intro rid hrid
    rw [hkeys0, mem_intRange]
    have := hrange rid hrid
    omega
  · intro lit hlit hpos did rid e hobj hout
    have hm : fs.model ≠ [] := by
      intro he
      rw [he] at hlit
      simp at hlit
    refine report_extract_err hm ?_
    refine extractLoop_bad_key hdec fs.model _ ?_ lit hlit hpos did rid e hobj hout
    intro k
    rw [hkeys0, mem_intRange]
    omega
  · intro r hr
    by_cases hm : fs.model = []
    · rw [report_model_nil hm] at hr
      injection hr with hr
      subst hr
      exact hkeys0
    · match heq1 : extractLoop fs.syms fs.model (initSol fs.routes_info.length) with
      | .error e =>
        rw [report_extract_err hm heq1] at hr
        exact absurd hr (by simp)
      | .ok sol =>
        rw [report_extract_ok hm heq1] at hr
        match heq2 : printLoop fs sol with
        | .error e =>
          rw [heq2] at hr
          exact absurd hr (by simp)
        | .ok printed =>
          rw [heq2] at hr
          injection hr with hr
          subst hr
          show sol.map Prod.fst = _
          rw [extractLoop_keys heq1, hkeys0]

theorem C10_witness :
    PoolDecodable fsSat.syms (fsSat.routes_info.map Prod.fst) ∧
    (((∀ rid ∈ fsSat.routes_info.map Prod.fst,
        1 ≤ rid ∧ rid ≤ (fsSat.routes_info.length : Int)) →
      ∃ sol, extractLoop fsSat.syms fsSat.model (initSol fsSat.routes_info.length)
        = .ok sol) ∧
    (∀ lit ∈ fsSat.model, 0 < lit → ∀ did rid e : Int,
      fsSat.syms.obj lit = some (varName did rid e) →
      (rid < 1 ∨ (fsSat.routes_info.length : Int) < rid) →
      fsSat.report = .error PyErr.keyError) ∧
    (∀ r, fsSat.report = .ok r →
      r.solution.map Prod.fst = intRange 1 ((fsSat.routes_info.length : Int) + 1))) := by
  have hdec : PoolDecodable fsSat.syms (fsSat.routes_info.map Prod.fst) := by
    intro kv hkv
    rcases List.mem_singleton.mp hkv with rfl
    exact ⟨5, 1, 2, rfl, by decide⟩
  exact ⟨hdec, C10_solution_keyed_by_range fsSat hdec⟩

end FietSAT
